import Mathlib

/-!
Shallow embedding of `src/R2PD/nearestnodes.py` (functions `nearest_power_nodes`
and `nearest_met_nodes`) over exact rationals.

Modelling conventions:
* pandas DataFrame rows become Lean structures; a frame indexed by a label
  becomes a list of rows each carrying its index label (`rid` / `nid`);
  `.loc[label]` becomes `findByKey` and a `.loc[label] = row` write becomes
  `updateByKey` (the input tables are indexed by unique identifiers).
* floats become `ℚ`; the cKDTree query distance is modelled by the squared
  Euclidean distance, which induces the same ordering (the code only compares
  distances, via `idxmin`), so every argmin/idxmin outcome is unchanged.
* `cKDTree.query` with `k = 1` returns the position of the nearest
  construction point, ties broken towards the smallest position
  (the tie order of the library is implementation defined; the spec leaves
  it unspecified, and no claim depends on it).  A query against a tree built
  on zero points returns the missing-neighbour marker `n` (here `0`) together
  with an infinite distance; the distance is never used by this code.
* the pandas groupby-pos idxmin-of-dist step becomes `winners`: for each
  nominated position `p` (in increasing order, as `groupby` sorts its keys)
  the row index of the first occurrence of the minimal distance in that group.
* the unbounded `while True:` loop becomes the fuel-indexed `allocLoop`;
  running out of fuel is reported as `LoopResult.fuelOut` (the source would
  simply keep iterating), and the uncaught `IndexError` that the source hits
  when `r_left` is empty while unmet nodes remain (an `r_index[i]` lookup on
  an empty index after querying the empty tree) is `LoopResult.crash`.
-/

/-- One row of the working resource frame `r_nodes` of `nearest_power_nodes`:
index label `site_id`, coordinates, total `capacity` and remaining
capacity `r_cap` (initialised to `capacity`). -/
structure ResourceRow where
  rid : ℕ
  latitude : ℚ
  longitude : ℚ
  capacity : ℚ
  r_cap : ℚ
deriving DecidableEq

/-- One row of the working node frame `nodes` of `nearest_power_nodes`:
index label, coordinates, requested `capacity`, accumulated assignment lists
`site_id` / `site_fracs` (the initial pandas NaN is modelled by `[]`; the
source initialises the lists on the first assignment and appends afterwards,
which coincides with always appending to `[]`), and remaining demand
`r_cap`. -/
structure NodeRow where
  nid : ℕ
  latitude : ℚ
  longitude : ℚ
  capacity : ℚ
  site_id : List ℕ
  site_fracs : List ℚ
  r_cap : ℚ
deriving DecidableEq

/-- Squared Euclidean distance between two points, the comparison key of the
KD-tree query (monotone image of the true distance). -/
def sqDist (a b : ℚ × ℚ) : ℚ :=
  (a.1 - b.1) ^ 2 + (a.2 - b.2) ^ 2

/-- Scan of the remaining construction points of the tree: `i` is the position
of the head of the remaining list, `best` the best `(position, squared
distance)` seen so far; a strict `<` keeps the earliest position on ties. -/
def queryNearestGo (q : ℚ × ℚ) : List (ℚ × ℚ) → ℕ → ℕ × ℚ → ℕ × ℚ
  | [], _, best => best
  | c :: rest, i, best =>
      if sqDist c q < best.2 then queryNearestGo q rest (i + 1) (i, sqDist c q)
      else queryNearestGo q rest (i + 1) best

/-- Model of `tree.query(point, k=1)` for a cKDTree built on `coords`:
position of the nearest point and its (squared) distance.  On an empty tree
the library returns the missing-neighbour marker `n = 0` with infinite
distance; the distance component is never used by the embedded code in that
situation, so it is returned as `0`. -/
def queryNearest (coords : List (ℚ × ℚ)) (q : ℚ × ℚ) : ℕ × ℚ :=
  match coords with
  | [] => (0, 0)
  | c :: rest => queryNearestGo q rest 1 (0, sqDist c q)

/-- Scan for `idxmin`: `best` is the best `(row index, dist)` pair so far;
strict `<` keeps the first occurrence of the minimum, as pandas does. -/
def idxminGo : ℕ × ℚ → List (ℕ × ℚ) → ℕ × ℚ
  | best, [] => best
  | best, x :: rest =>
      if x.2 < best.2 then idxminGo x rest else idxminGo best rest

/-- Model of `Series.idxmin` on a series of `(row index, dist)` entries. -/
def idxmin : List (ℕ × ℚ) → Option ℕ
  | [] => none
  | x :: rest => some (idxminGo x rest).1

/-- Rows of the `node_pairs` frame nominating position `p`: entries
`(row index, dist)` in row order, `j` being the index of the next row. -/
def groupRowsAux (p : ℕ) : ℕ → List (ℕ × ℚ) → List (ℕ × ℚ)
  | _, [] => []
  | j, q :: rest =>
      if q.1 = p then (j, q.2) :: groupRowsAux p (j + 1) rest
      else groupRowsAux p (j + 1) rest

/-- Model of the groupby-pos idxmin-of-dist step of `node_pairs` on the
`(pos, dist)` rows of the pass, iterated as `(pos, winning row index)` pairs: for each
nominated position (in increasing order, as `groupby` sorts its keys) the row
with the minimal distance, first occurrence on ties.  Every position produced
by the tree query is `< m`, the number of available resources. -/
def winners (m : ℕ) (pairs : List (ℕ × ℚ)) : List (ℕ × ℕ) :=
  (List.range m).filterMap fun p =>
    match idxmin (groupRowsAux p 0 pairs) with
    | some j => some (p, j)
    | none => none

/-- Generic model of a `.loc[k]` read on a frame whose index labels are given
by `key` (labels are unique in all uses). -/
def findByKey {α : Type} (key : α → ℕ) (l : List α) (k : ℕ) : Option α :=
  l.find? fun x => key x == k

/-- Generic model of a `.loc[k] = a` write. -/
def updateByKey {α : Type} (key : α → ℕ) (l : List α) (k : ℕ) (a : α) : List α :=
  l.map fun x => if key x == k then a else x

/-- The apportionment step of `nearest_power_nodes` for one
`(resource, node)` pair (source lines 82–100): compares the remaining demand
of the node with the remaining capacity `cap` of the resource, computes the
fraction of the total capacity of the resource that is consumed, updates both
remaining quantities and appends `(site_id, fraction)` to the lists of the
node. -/
def apportion (resource : ResourceRow) (node : NodeRow) : ResourceRow × NodeRow :=
  if resource.r_cap < node.r_cap then
    ({ resource with r_cap := 0 },
     { node with
        r_cap := node.r_cap - resource.r_cap,
        site_id := node.site_id ++ [resource.rid],
        site_fracs := node.site_fracs ++ [resource.r_cap / resource.capacity] })
  else
    ({ resource with r_cap := resource.r_cap - node.r_cap },
     { node with
        r_cap := 0,
        site_id := node.site_id ++ [resource.rid],
        site_fracs := node.site_fracs ++ [node.r_cap / resource.capacity] })

/-- Body of the `for i, n in node_pairs.iteritems():` loop for one winning
pair of index labels `(r_i, n_i)`: read the current rows by label, apportion,
write both rows back.  The labels always resolve in the reachable states; the
identity fallback is never taken there. -/
def applyPair (st : List ResourceRow × List NodeRow) (pr : ℕ × ℕ) :
    List ResourceRow × List NodeRow :=
  match findByKey ResourceRow.rid st.1 pr.1, findByKey NodeRow.nid st.2 pr.2 with
  | some resource, some node =>
      (updateByKey ResourceRow.rid st.1 pr.1 (apportion resource node).1,
       updateByKey NodeRow.nid st.2 pr.2 (apportion resource node).2)
  | _, _ => st

/-- One iteration of the `while True:` loop of `nearest_power_nodes`
(source lines 48–103): filter the resources with remaining capacity and the
nodes with remaining demand, build the tree, query it with every remaining
node, resolve the nominations with `winners`, and fold the apportionment over
the winning pairs (translated to index labels through `r_index` / `n_index`).
`none` models the uncaught `IndexError` the source hits when no resource has
remaining capacity while some node still has remaining demand (the query
against the empty tree returns the missing-neighbour marker and `r_index[i]`
then fails on the empty index).  `passLabelPairs` is the list of winning
pairs of the pass, already translated to index labels, in iteration order. -/
def passLabelPairs (rs : List ResourceRow) (ns : List NodeRow) : List (ℕ × ℕ) :=
  let r_left := rs.filter fun r => decide (0 < r.r_cap)
  let nodes_left := ns.filter fun n => decide (0 < n.r_cap)
  let coords := r_left.map fun r => (r.latitude, r.longitude)
  let pairs := nodes_left.map fun n => queryNearest coords (n.latitude, n.longitude)
  (winners r_left.length pairs).map fun pj =>
    ((r_left.map ResourceRow.rid).getD pj.1 0, (nodes_left.map NodeRow.nid).getD pj.2 0)

def onePass (rs : List ResourceRow) (ns : List NodeRow) :
    Option (List ResourceRow × List NodeRow) :=
  if (rs.filter fun r => decide (0 < r.r_cap)).isEmpty
      && !(ns.filter fun n => decide (0 < n.r_cap)).isEmpty then none
  else some ((passLabelPairs rs ns).foldl applyPair (rs, ns))

/-- Outcome of the allocation loop: normal exit with the final frames, the
uncaught `IndexError` of the empty-tree pass, or exhaustion of the fuel bound
(the source would keep looping). -/
inductive LoopResult where
  | ok (rs : List ResourceRow) (ns : List NodeRow)
  | crash
  | fuelOut
deriving DecidableEq

/-- The `while True:` loop of `nearest_power_nodes`, with an explicit bound
`fuel` on the number of iterations: run a pass, then exit if
the count of nodes with positive remaining demand is zero, mirroring the
np.sum check (it sits at the bottom of the loop,
so the body always runs at least once). -/
def allocLoop : ℕ → List ResourceRow → List NodeRow → LoopResult
  | 0, _, _ => .fuelOut
  | fuel + 1, rs, ns =>
      match onePass rs ns with
      | none => .crash
      | some (rs2, ns2) =>
          if (ns2.countP fun n => decide (0 < n.r_cap)) = 0 then .ok rs2 ns2
          else allocLoop fuel rs2 ns2

/-- State of the working frames after `k` iterations of the loop body,
ignoring the exit check: every state the loop visits (and in particular every
state in which the assignment lists are observable) is of this form.  `none`
models the `IndexError` crash. -/
def runPasses : ℕ → List ResourceRow → List NodeRow → Option (List ResourceRow × List NodeRow)
  | 0, rs, ns => some (rs, ns)
  | k + 1, rs, ns =>
      match onePass rs ns with
      | none => none
      | some (rs2, ns2) => runPasses k rs2 ns2

/-- A requested power node as described by the docstring of the function:
`[node_id(index), latitude, longitude, capacity]`. -/
structure PowerNode where
  nid : ℕ
  latitude : ℚ
  longitude : ℚ
  capacity : ℚ
deriving DecidableEq

/-- A resource site of `resource_meta`:
`[site_id(index), latitude, longitude, capacity]`. -/
structure PowerResource where
  rid : ℕ
  latitude : ℚ
  longitude : ℚ
  capacity : ℚ
deriving DecidableEq

/-- Initial node frame: assignment lists empty (NaN), remaining demand equal
to the requested capacity. -/
def initNodes (l : List PowerNode) : List NodeRow :=
  l.map fun x =>
    { nid := x.nid, latitude := x.latitude, longitude := x.longitude,
      capacity := x.capacity, site_id := [], site_fracs := [], r_cap := x.capacity }

/-- Initial resource frame (source lines 44–46): `r_cap` is a copy of
`capacity`. -/
def initResources (l : List PowerResource) : List ResourceRow :=
  l.map fun x =>
    { rid := x.rid, latitude := x.latitude, longitude := x.longitude,
      capacity := x.capacity, r_cap := x.capacity }

/-- A row of the caller-supplied `node_data` frame: index label and the cell
values of its (three) data columns, in column order. -/
structure TableRow where
  nid : ℕ
  cells : List ℚ
deriving DecidableEq

/-- The caller-supplied `node_data` frame: the names of its data columns, in
order, and its rows.  Only one by-name access is performed on this frame
(the read of the column named capacity (MW), source line 42); the copy on
line 41 is
positional (`node_data.values`). -/
structure PowerTable where
  colNames : List String
  rows : List TableRow
deriving DecidableEq

/-- A row of the returned frame
selecting latitude, longitude, capacity, site_id and site_fracs. -/
structure OutNode where
  nid : ℕ
  latitude : ℚ
  longitude : ℚ
  capacity : ℚ
  site_id : List ℕ
  site_fracs : List ℚ
deriving DecidableEq

/-- Column selection producing the result frame (source lines 110–111). -/
def toOut (n : NodeRow) : OutNode :=
  { nid := n.nid, latitude := n.latitude, longitude := n.longitude,
    capacity := n.capacity, site_id := n.site_id, site_fracs := n.site_fracs }

/-- Outcome of `nearest_power_nodes`: a result frame, the `KeyError` raised
by the read of the capacity (MW) column when no column has that exact
name, the
uncaught `IndexError` of the capacity-exhausted pass, or a run longer than
the fuel bound. -/
inductive PRes where
  | ok (out : List OutNode)
  | keyError
  | indexError
  | diverge
deriving DecidableEq

/-- The function `nearest_power_nodes` (source lines 11–111).  The working
node frame takes `latitude`, `longitude`, `capacity` positionally from the
first three cells of each row (line 41, `node_data.values`) and the remaining
demand `r_cap` from the column literally named `capacity (MW)` (line 42);
if no column has that name, pandas raises a `KeyError`. -/
def nearest_power_nodes (fuel : ℕ) (node_data : PowerTable)
    (resource_meta : List PowerResource) : PRes :=
  match node_data.colNames.findIdx? fun s => s == "capacity (MW)" with
  | none => .keyError
  | some ci =>
      let ns : List NodeRow := node_data.rows.map fun r =>
        { nid := r.nid, latitude := r.cells.getD 0 0, longitude := r.cells.getD 1 0,
          capacity := r.cells.getD 2 0, site_id := [], site_fracs := [],
          r_cap := r.cells.getD ci 0 }
      let rs := initResources resource_meta
      match allocLoop fuel rs ns with
      | .ok _ ns2 => .ok (ns2.map toOut)
      | .crash => .indexError
      | .fuelOut => .diverge

/-- A requested weather node: `[node_id(index), latitude, longitude]`. -/
structure MetNode where
  nid : ℕ
  latitude : ℚ
  longitude : ℚ
deriving DecidableEq

/-- A weather resource site: `[site_id(index), latitude, longitude]`. -/
structure MetResource where
  rid : ℕ
  latitude : ℚ
  longitude : ℚ
deriving DecidableEq

/-- A row of the frame returned by `nearest_met_nodes`. -/
structure MetOut where
  nid : ℕ
  latitude : ℚ
  longitude : ℚ
  site_id : ℕ
deriving DecidableEq

/-- The function `nearest_met_nodes` (source lines 114–156): build one tree
over all resource coordinates, query it once with every node, and store the
value returned by `tree.query` — the POSITION of the nearest point in the
construction sequence — directly in the `site_id` column (line 153–154); the
position is never translated to the index label of `resource_meta` (contrast
`r_i = r_index[i]` and `resource.name` in `nearest_power_nodes`). -/
def nearest_met_nodes (node_data : List MetNode) (resource_meta : List MetResource) :
    List MetOut :=
  let lat_lon := resource_meta.map fun r => (r.latitude, r.longitude)
  node_data.map fun n =>
    { nid := n.nid, latitude := n.latitude, longitude := n.longitude,
      site_id := (queryNearest lat_lon (n.latitude, n.longitude)).1 }

/-! Claim theorems: concrete behaviour of the error paths and of the
apportionment arithmetic. -/

/-- C1 (code divergence).  The claimed behaviour is a `CapacityExhaustedError`
enumerating every unmet node; no such error class exists anywhere in the
source.  On the concrete infeasible input below — one node requesting 2 MW,
one resource of total capacity 1 MW — pass 1 apportions the whole resource
(leaving the node with remaining demand 1) and pass 2 then finds no resource
with remaining capacity while the node is still unmet, which makes the source
hit an uncaught low-level `IndexError` (modelled by `PRes.indexError`) instead
of raising the claimed `CapacityExhaustedError` with the unmet nodes. -/
theorem c1_capacity_exhausted_crashes :
    nearest_power_nodes 3
      ⟨["latitude", "longitude", "capacity (MW)"], [⟨0, [0, 0, 2]⟩]⟩
      [⟨0, 0, 0, 1⟩] = PRes.indexError := by
  simp [nearest_power_nodes, allocLoop, onePass, passLabelPairs, applyPair, findByKey,
    updateByKey, apportion, winners, groupRowsAux, idxmin, idxminGo, queryNearest,
    queryNearestGo, sqDist, initResources, List.filter, List.range, List.range.loop,
    List.findIdx?]

/-- C2.  Apportionment arithmetic for a winning `(resource, node)` pair, with
`need` the current remaining demand of the node and `cap` the current
remaining capacity of the resource: if `need < cap`, the appended fraction is
`need / resource.capacity`, the remaining capacity of the resource decreases
by `need` and the remaining demand of the node becomes `0`; otherwise
(including `need = cap`) the appended fraction is `cap / resource.capacity`,
the remaining demand of the node decreases by `cap` and the remaining
capacity of the resource becomes `0`.  (At `need = cap` the source takes its
else-branch; the resulting values coincide with this description.) -/
theorem c2_apportionment (resource : ResourceRow) (node : NodeRow) :
    (node.r_cap < resource.r_cap →
      (apportion resource node).2.site_fracs
          = node.site_fracs ++ [node.r_cap / resource.capacity] ∧
      (apportion resource node).1.r_cap = resource.r_cap - node.r_cap ∧
      (apportion resource node).2.r_cap = 0) ∧
    (resource.r_cap ≤ node.r_cap →
      (apportion resource node).2.site_fracs
          = node.site_fracs ++ [resource.r_cap / resource.capacity] ∧
      (apportion resource node).2.r_cap = node.r_cap - resource.r_cap ∧
      (apportion resource node).1.r_cap = 0) := by
  constructor
  · intro h
    have h2 : ¬ resource.r_cap < node.r_cap := not_lt_of_gt h
    simp [apportion, h2]
  · intro h
    rcases lt_or_eq_of_le h with h1 | h1
    · simp [apportion, h1]
    · have h2 : ¬ resource.r_cap < node.r_cap := by
        rw [h1]
        exact lt_irrefl _
      simp [apportion, h2, ← h1]

/-- Witness for C2 at a concrete pair: resource with total capacity 4 and
remaining capacity 3, node with remaining demand 2 (so `need < cap`). -/
theorem c2_apportionment_witness :
    (apportion ⟨1, 0, 0, 4, 3⟩ ⟨5, 0, 0, 2, [], [], 2⟩).2.site_fracs = [(2 : ℚ) / 4] ∧
    (apportion ⟨1, 0, 0, 4, 3⟩ ⟨5, 0, 0, 2, [], [], 2⟩).1.r_cap = (3 : ℚ) - 2 ∧
    (apportion ⟨1, 0, 0, 4, 3⟩ ⟨5, 0, 0, 2, [], [], 2⟩).2.r_cap = 0 :=
  (c2_apportionment ⟨1, 0, 0, 4, 3⟩ ⟨5, 0, 0, 2, [], [], 2⟩).1 (by norm_num)

/-- C7 (code divergence).  With a single resource (hence a strictly minimal
distance), the claimed `site_id` is the index label of that resource (`42`
below), but `nearest_met_nodes` stores the raw position returned by
`tree.query` — `0` — without translating it through the resource index
(contrast the `r_index[i]` / `resource.name` translation in
`nearest_power_nodes`). -/
theorem c7_met_site_id_is_position_not_label :
    (nearest_met_nodes [⟨0, 0, 0⟩] [⟨42, 0, 0⟩]).map MetOut.site_id = [0] ∧
    ([⟨42, 0, 0⟩] : List MetResource).map MetResource.rid = [42] :=
  ⟨rfl, rfl⟩

/-- C8 (code divergence).  On a power request table whose columns are named
exactly `latitude`, `longitude`, `capacity` — the layout stated by the claim,
by the docstring of the function and by the spec — the read of the
`capacity (MW)` column on source line 42 raises a `KeyError` before any
allocation happens, so no result table with the claimed shape is returned. -/
theorem c8_capacity_column_raises_keyerror :
    nearest_power_nodes 5
      ⟨["latitude", "longitude", "capacity"], [⟨0, [0, 0, 5]⟩]⟩
      [⟨0, 0, 0, 10⟩] = PRes.keyError :=
  rfl

/-- C9 (code divergence).  The claim is that `nearest_met_nodes` fails with
`EmptyIndexError` on an empty resource table; no such error class exists in
the source.  Querying the tree built on zero points yields the
missing-neighbour marker `n = 0`, and the function returns a result table
normally, with `site_id = 0` — the position of a nonexistent resource — for
the requested node. -/
theorem c9_empty_resources_returns_table :
    nearest_met_nodes [⟨0, 0, 0⟩] [] = [⟨0, 0, 0, 0⟩] :=
  rfl

/-! Properties of the conflict-resolution step `winners`. -/

/-- The scan result of `idxminGo` is one of the scanned entries. -/
theorem idxminGo_mem : ∀ (l : List (ℕ × ℚ)) (b : ℕ × ℚ), idxminGo b l ∈ b :: l := by
  intro l
  induction l with
  | nil => intro b; simp [idxminGo]
  | cons x rest ih =>
      intro b
      by_cases h : x.2 < b.2
      · simp only [idxminGo, if_pos h]
        have := ih x
        simp only [List.mem_cons] at this ⊢
        tauto
      · simp only [idxminGo, if_neg h]
        have := ih b
        simp only [List.mem_cons] at this ⊢
        tauto

/-- The scan result of `idxminGo` has minimal distance among the scanned
entries. -/
theorem idxminGo_min : ∀ (l : List (ℕ × ℚ)) (b : ℕ × ℚ),
    ∀ y ∈ b :: l, (idxminGo b l).2 ≤ y.2 := by
  intro l
  induction l with
  | nil => intro b y hy; simp at hy; simp [idxminGo, hy]
  | cons x rest ih =>
      intro b y hy
      simp only [List.mem_cons] at hy
      by_cases h : x.2 < b.2
      · simp only [idxminGo, if_pos h]
        rcases hy with hy | hy | hy
        · calc (idxminGo x rest).2 ≤ x.2 := ih x x (by simp)
            _ ≤ b.2 := le_of_lt h
            _ = y.2 := by rw [hy]
        · exact ih x y (by simp [hy])
        · exact ih x y (by simp [hy])
      · simp only [idxminGo, if_neg h]
        rcases hy with hy | hy | hy
        · exact ih b y (by simp [hy])
        · have : (idxminGo b rest).2 ≤ b.2 := ih b b (by simp)
          rw [hy]
          exact le_trans this (le_of_not_lt h)
        · exact ih b y (by simp [hy])

/-- Specification of `idxmin`: it returns the row index of an entry whose
distance is minimal over the series (pandas keeps the first occurrence on
ties; minimality is all the claims need). -/
theorem idxmin_spec {l : List (ℕ × ℚ)} {j : ℕ} (h : idxmin l = some j) :
    ∃ d, (j, d) ∈ l ∧ ∀ y ∈ l, d ≤ y.2 := by
  match l with
  | [] => simp [idxmin] at h
  | x :: rest =>
      simp only [idxmin, Option.some.injEq] at h
      refine ⟨(idxminGo x rest).2, ?_, ?_⟩
      · have := idxminGo_mem rest x
        rw [← h]
        simpa using this
      · intro y hy
        exact idxminGo_min rest x y hy

/-- `idxmin` succeeds on a nonempty series. -/
theorem idxmin_isSome {l : List (ℕ × ℚ)} (h : l ≠ []) : ∃ j, idxmin l = some j := by
  match l with
  | [] => exact absurd rfl h
  | x :: rest => exact ⟨(idxminGo x rest).1, rfl⟩

/-- Every entry of a nomination group is a row of the pass nominating `p`. -/
theorem groupRowsAux_sub :
    ∀ (pairs : List (ℕ × ℚ)) (i : ℕ) (x : ℕ × ℚ), x ∈ groupRowsAux p i pairs →
      ∃ t, t < pairs.length ∧ x.1 = i + t ∧ pairs.getD t (0, 0) = (p, x.2) := by
  intro pairs
  induction pairs with
  | nil => intro i x hx; simp [groupRowsAux] at hx
  | cons q rest ih =>
      intro i x hx
      by_cases h : q.1 = p
      · simp only [groupRowsAux, if_pos h, List.mem_cons] at hx
        rcases hx with hx | hx
        · refine ⟨0, by simp, by simp [hx], ?_⟩
          simp [List.getD, ← h, hx]
        · rcases ih (i + 1) x hx with ⟨t, ht, hx1, hx2⟩
          exact ⟨t + 1, by simpa using ht, by omega, by simpa using hx2⟩
      · simp only [groupRowsAux, if_neg h] at hx
        rcases ih (i + 1) x hx with ⟨t, ht, hx1, hx2⟩
        exact ⟨t + 1, by simpa using ht, by omega, by simpa using hx2⟩

/-- Every row of the pass nominating `p` appears in the nomination group
of `p`. -/
theorem mem_groupRowsAux :
    ∀ (pairs : List (ℕ × ℚ)) (i t : ℕ) (d : ℚ), t < pairs.length →
      pairs.getD t (0, 0) = (p, d) → (i + t, d) ∈ groupRowsAux p i pairs := by
  intro pairs
  induction pairs with
  | nil => intro i t d ht; simp at ht
  | cons q rest ih =>
      intro i t d ht hget
      match t with
      | 0 =>
          simp only [List.getD_cons_zero] at hget
          simp [groupRowsAux, hget]
      | t' + 1 =>
          simp only [List.getD_cons_succ] at hget
          have hmem := ih (i + 1) t' d (by simpa using ht) hget
          by_cases h : q.1 = p
          · simp only [groupRowsAux, if_pos h, List.mem_cons]
            right
            have : i + 1 + t' = i + (t' + 1) := by omega
            rwa [this] at hmem
          · simp only [groupRowsAux, if_neg h]
            have : i + 1 + t' = i + (t' + 1) := by omega
            rwa [this] at hmem

/-- Membership characterisation of `winners`. -/
theorem winners_mem {m : ℕ} {pairs : List (ℕ × ℚ)} {pj : ℕ × ℕ} :
    pj ∈ winners m pairs ↔
      pj.1 < m ∧ idxmin (groupRowsAux pj.1 0 pairs) = some pj.2 := by
  constructor
  · intro h
    simp only [winners, List.mem_filterMap, List.mem_range] at h
    rcases h with ⟨p, hp, hf⟩
    cases hidx : idxmin (groupRowsAux p 0 pairs) with
    | none => rw [hidx] at hf; simp at hf
    | some j =>
        rw [hidx] at hf
        simp only [Option.some.injEq] at hf
        rw [← hf]
        exact ⟨hp, hidx⟩
  · rintro ⟨hm, hidx⟩
    simp only [winners, List.mem_filterMap, List.mem_range]
    refine ⟨pj.1, hm, ?_⟩
    rw [hidx]

/-- The winning row of each nominated resource nominates that resource and
has minimal distance among the rows nominating it. -/
theorem winners_minimality {m : ℕ} {pairs : List (ℕ × ℚ)} {pj : ℕ × ℕ}
    (h : pj ∈ winners m pairs) :
    pj.2 < pairs.length ∧ (pairs.getD pj.2 (0, 0)).1 = pj.1 ∧
      ∀ j, j < pairs.length → (pairs.getD j (0, 0)).1 = pj.1 →
        (pairs.getD pj.2 (0, 0)).2 ≤ (pairs.getD j (0, 0)).2 := by
  rcases winners_mem.mp h with ⟨hm, hidx⟩
  rcases idxmin_spec hidx with ⟨d, hmem, hmin⟩
  rcases groupRowsAux_sub pairs 0 (pj.2, d) hmem with ⟨t, ht, ht1, ht2⟩
  simp only at ht1
  have hj : pj.2 = t := by omega
  subst hj
  have hfst : (pairs.getD pj.2 (0, 0)).1 = pj.1 := by rw [ht2]
  have hsnd : (pairs.getD pj.2 (0, 0)).2 = d := by rw [ht2]
  refine ⟨ht, hfst, ?_⟩
  intro j hj hjp
  have : pairs.getD j (0, 0) = (pj.1, (pairs.getD j (0, 0)).2) := by
    rw [← hjp]
  have hmem2 : (0 + j, (pairs.getD j (0, 0)).2) ∈ groupRowsAux pj.1 0 pairs :=
    mem_groupRowsAux pairs 0 j _ hj this
  rw [hsnd]
  exact hmin (0 + j, (pairs.getD j (0, 0)).2) hmem2

/-- Every nominated resource of the pass has a winner. -/
theorem winners_exists {m : ℕ} {pairs : List (ℕ × ℚ)} {p : ℕ}
    (hm : p < m) (t : ℕ) (ht : t < pairs.length)
    (hp : (pairs.getD t (0, 0)).1 = p) :
    ∃ j, (p, j) ∈ winners m pairs := by
  have hpair : pairs.getD t (0, 0) = (p, (pairs.getD t (0, 0)).2) := by rw [← hp]
  have hgrp : (0 + t, (pairs.getD t (0, 0)).2) ∈ groupRowsAux p 0 pairs :=
    mem_groupRowsAux pairs 0 t _ ht hpair
  have hne : groupRowsAux p 0 pairs ≠ [] := by
    intro hempty
    rw [hempty] at hgrp
    simp at hgrp
  rcases idxmin_isSome hne with ⟨j, hj⟩
  exact ⟨j, winners_mem.mpr ⟨hm, hj⟩⟩

/-- The first components of `winners` are the nominated resources of the
range, in increasing order; in particular each resource wins at most one
row. -/
theorem winners_map_fst (m : ℕ) (pairs : List (ℕ × ℚ)) :
    (winners m pairs).map Prod.fst =
      (List.range m).filter fun p => (idxmin (groupRowsAux p 0 pairs)).isSome := by
  unfold winners
  induction List.range m with
  | nil => rfl
  | cons p l ih =>
      simp only [List.filterMap_cons, List.filter_cons]
      cases hidx : idxmin (groupRowsAux p 0 pairs) with
      | none => simpa [hidx] using ih
      | some j => simpa [hidx] using ih

/-- At most one winning row per nominated resource: the resource components
of `winners` are pairwise distinct. -/
theorem winners_fst_nodup (m : ℕ) (pairs : List (ℕ × ℚ)) :
    ((winners m pairs).map Prod.fst).Nodup := by
  rw [winners_map_fst]
  exact (List.nodup_range m).filter _

/-- C3.  Conflict resolution of one pass: `onePass` folds the apportionment
exactly over `winners m pairs`, where `pairs` are the `(nominated position,
query distance)` rows of the remaining nodes and `m` the number of available
resources (every nominated position is `< m`).  For these rows: each
nominated resource appears in at most one winning pair (`Nodup` of the first
components); each winning pair is a nomination of that resource whose
distance is minimal among the rows nominating it; and every nominated
resource has a winning pair.  Hence exactly one remaining node per nominated
resource — one at minimum query distance — is apportioned capacity in the
pass, and the other nominating nodes get no assignment in it (they are
re-examined when the next pass recomputes the filters and nominations). -/
theorem c3_conflict_resolution (m : ℕ) (pairs : List (ℕ × ℚ)) :
    ((winners m pairs).map Prod.fst).Nodup ∧
    (∀ pj ∈ winners m pairs, pj.2 < pairs.length ∧
        (pairs.getD pj.2 (0, 0)).1 = pj.1 ∧
        ∀ j, j < pairs.length → (pairs.getD j (0, 0)).1 = pj.1 →
          (pairs.getD pj.2 (0, 0)).2 ≤ (pairs.getD j (0, 0)).2) ∧
    (∀ p t, p < m → t < pairs.length → (pairs.getD t (0, 0)).1 = p →
        ∃ j, (p, j) ∈ winners m pairs) :=
  ⟨winners_fst_nodup m pairs, fun _ h => winners_minimality h,
   fun _ t hm ht hp => winners_exists hm t ht hp⟩

/-- Witness for C3 on a concrete pass: two rows both nominating resource 0,
at distances 3 and 7. -/
theorem c3_conflict_resolution_witness :
    ((winners 1 [((0 : ℕ), (3 : ℚ)), (0, 7)]).map Prod.fst).Nodup :=
  (c3_conflict_resolution 1 [((0 : ℕ), (3 : ℚ)), (0, 7)]).1

/-! Accounting quantities used by the conservation and completion claims. -/

/-- Fraction total contributed by an assignment list to the resource
labelled `rid`. -/
def fracSum (l : List (ℕ × ℚ)) (rid : ℕ) : ℚ :=
  ((l.filter fun e => e.1 == rid).map Prod.snd).sum

/-- Fraction total assigned by node `n` to the resource labelled `rid`. -/
def fracFor (n : NodeRow) (rid : ℕ) : ℚ :=
  fracSum (n.site_id.zip n.site_fracs) rid

/-- Sum over all nodes of the fraction assigned to the resource labelled
`rid`. -/
def sumAssigned (ns : List NodeRow) (rid : ℕ) : ℚ :=
  (ns.map fun n => fracFor n rid).sum

/-- Total capacity of the resource labelled `rid` (total capacities never
change during the loop). -/
def capacityOf (rs : List ResourceRow) (rid : ℕ) : ℚ :=
  match findByKey ResourceRow.rid rs rid with
  | some r => r.capacity
  | none => 0

/-- MW total assigned to node `n`: sum over its assignments of fraction
times the total capacity of the matched resource. -/
def nodeAssignedTotal (rs : List ResourceRow) (n : NodeRow) : ℚ :=
  ((n.site_id.zip n.site_fracs).map fun e => e.2 * capacityOf rs e.1).sum

/-- Total remaining capacity over the resource frame. -/
def resTotal (rs : List ResourceRow) : ℚ :=
  (rs.map ResourceRow.r_cap).sum

/-- Total remaining demand over the node frame. -/
def nodeTotal (ns : List NodeRow) : ℚ :=
  (ns.map NodeRow.r_cap).sum

/-- Number of resources with remaining capacity plus number of nodes with
remaining demand: the termination measure of the loop. -/
def countPos (rs : List ResourceRow) (ns : List NodeRow) : ℕ :=
  (rs.countP fun r => decide (0 < r.r_cap)) + (ns.countP fun n => decide (0 < n.r_cap))

/-- How one pass step relates an old resource row to its updated version:
label and total capacity are preserved, remaining capacity never grows. -/
def RelR (a b : ResourceRow) : Prop :=
  a.rid = b.rid ∧ a.capacity = b.capacity ∧ b.r_cap ≤ a.r_cap

/-- How one pass step relates an old node row to its updated version. -/
def RelN (a b : NodeRow) : Prop :=
  a.nid = b.nid ∧ a.capacity = b.capacity ∧ b.r_cap ≤ a.r_cap

/-- Invariant of the working frames, established by the initialisation and
preserved by every apportionment of the loop. -/
structure AllocInv (rs : List ResourceRow) (ns : List NodeRow) : Prop where
  ndr : (rs.map ResourceRow.rid).Nodup
  ndn : (ns.map NodeRow.nid).Nodup
  posCap : ∀ r ∈ rs, 0 < r.capacity
  nnR : ∀ r ∈ rs, 0 ≤ r.r_cap
  nnN : ∀ n ∈ ns, 0 ≤ n.r_cap
  lenEq : ∀ n ∈ ns, n.site_id.length = n.site_fracs.length
  accR : ∀ r ∈ rs, sumAssigned ns r.rid * r.capacity = r.capacity - r.r_cap
  accN : ∀ n ∈ ns, nodeAssignedTotal rs n + n.r_cap = n.capacity
  siteNodup : ∀ n ∈ ns, n.site_id.Nodup
  siteSpent : ∀ n ∈ ns, ∀ rid ∈ n.site_id,
    (∀ r ∈ rs, r.rid = rid → r.r_cap ≤ 0) ∨ n.r_cap ≤ 0

/-! Generic facts about label lookup and label writes. -/

/-- Unfolding of a label lookup on a cons cell. -/
theorem findByKey_cons_self {α : Type} {key : α → ℕ} {x : α} {t : List α} {k : ℕ}
    (h : (key x == k) = true) : findByKey key (x :: t) k = some x := by
  simp only [findByKey]
  exact List.find?_cons_of_pos t h

/-- Unfolding of a label lookup on a cons cell with a non-matching head. -/
theorem findByKey_cons_ne {α : Type} {key : α → ℕ} {x : α} {t : List α} {k : ℕ}
    (h : (key x == k) = false) : findByKey key (x :: t) k = findByKey key t k := by
  simp only [findByKey]
  exact List.find?_cons_of_neg t (by simp [h])

/-- Unfolding of a label write on a cons cell. -/
theorem updateByKey_cons {α : Type} (key : α → ℕ) (x : α) (t : List α) (k : ℕ) (a : α) :
    updateByKey key (x :: t) k a = (if key x == k then a else x) :: updateByKey key t k a :=
  rfl

/-- A successful label lookup returns a row of the frame with that label. -/
theorem findByKey_some {α : Type} {key : α → ℕ} {l : List α} {k : ℕ} {a : α}
    (h : findByKey key l k = some a) : a ∈ l ∧ key a = k := by
  refine ⟨List.mem_of_find?_eq_some h, ?_⟩
  have := List.find?_some h
  simpa using this

/-- With pairwise-distinct labels, looking up the label of a row of the
frame returns that row. -/
theorem findByKey_nodup_mem {α : Type} {key : α → ℕ} :
    ∀ {l : List α}, (l.map key).Nodup → ∀ {a : α}, a ∈ l →
      findByKey key l (key a) = some a := by
  intro l
  induction l with
  | nil => intro _ a ha; simp at ha
  | cons x t ih =>
      intro nd a ha
      simp only [List.map_cons, List.nodup_cons] at nd
      rcases List.mem_cons.mp ha with rfl | hat
      · exact findByKey_cons_self (by simp)
      · have hne : key x ≠ key a := by
          intro hkey
          exact nd.1 (hkey ▸ List.mem_map_of_mem key hat)
        rw [findByKey_cons_ne (by simpa using hne)]
        exact ih nd.2 hat

/-- With pairwise-distinct labels, two rows with the same label are equal. -/
theorem eq_of_key_nodup {α : Type} {key : α → ℕ} {l : List α}
    (nd : (l.map key).Nodup) {x y : α} (hx : x ∈ l) (hy : y ∈ l)
    (h : key x = key y) : x = y := by
  have h1 : findByKey key l (key x) = some x := findByKey_nodup_mem nd hx
  have h2 : findByKey key l (key y) = some y := findByKey_nodup_mem nd hy
  rw [h] at h1
  rw [h1] at h2
  exact Option.some.inj h2

/-- A label write never changes the label column. -/
theorem updateByKey_map_key {α : Type} (key : α → ℕ) (l : List α) (k : ℕ) (a : α)
    (ha : key a = k) : (updateByKey key l k a).map key = l.map key := by
  induction l with
  | nil => rfl
  | cons x t ih =>
      rw [updateByKey_cons]
      by_cases h : (key x == k) = true
      · have hxk : key x = k := beq_iff_eq.mp h
        simp only [h, if_true, List.map_cons, ih]
        rw [ha, hxk]
      · rw [Bool.not_eq_true] at h
        simp only [h, Bool.false_eq_true, if_false, List.map_cons, ih]

/-- A row of the updated frame is either the written row or an untouched row
with a different label. -/
theorem mem_updateByKey {α : Type} {key : α → ℕ} {l : List α} {k : ℕ} {a x : α}
    (hx : x ∈ updateByKey key l k a) : x = a ∨ (x ∈ l ∧ key x ≠ k) := by
  rcases List.mem_map.mp hx with ⟨y, hy, hxy⟩
  by_cases h : (key y == k) = true
  · left
    rw [← hxy]
    simp [h]
  · right
    rw [Bool.not_eq_true] at h
    have : x = y := by rw [← hxy]; simp [h]
    rw [this]
    exact ⟨hy, by simpa using h⟩

/-- Writing a label that occurs nowhere leaves the frame unchanged. -/
theorem updateByKey_of_forall_ne {α : Type} {key : α → ℕ} {l : List α} {k : ℕ} {a : α}
    (h : ∀ x ∈ l, key x ≠ k) : updateByKey key l k a = l := by
  induction l with
  | nil => rfl
  | cons x t ih =>
      have hx : (key x == k) = false := by simpa using h x (by simp)
      rw [updateByKey_cons, hx]
      simp only [Bool.false_eq_true, if_false]
      rw [ih fun y hy => h y (by simp [hy])]

/-- Looking up a different label after a label write is unaffected. -/
theorem findByKey_updateByKey_ne {α : Type} {key : α → ℕ} {l : List α} {k : ℕ} {a : α}
    (ha : key a = k) {k2 : ℕ} (hne : k2 ≠ k) :
    findByKey key (updateByKey key l k a) k2 = findByKey key l k2 := by
  induction l with
  | nil => rfl
  | cons x t ih =>
      rw [updateByKey_cons]
      by_cases h : (key x == k) = true
      · have hxk : key x = k := beq_iff_eq.mp h
        have h1 : (key a == k2) = false := by simp [ha, Ne.symm hne]
        have h2 : (key x == k2) = false := by simp [hxk, Ne.symm hne]
        rw [h, if_pos rfl, findByKey_cons_ne h1, findByKey_cons_ne h2]
        exact ih
      · rw [Bool.not_eq_true] at h
        rw [h]
        simp only [Bool.false_eq_true, if_false]
        by_cases h2 : (key x == k2) = true
        · rw [findByKey_cons_self h2, findByKey_cons_self h2]
        · rw [Bool.not_eq_true] at h2
          rw [findByKey_cons_ne h2, findByKey_cons_ne h2]
          exact ih

/-- Looking up the written label after a label write returns the written row
(provided the label was present before). -/
theorem findByKey_updateByKey_self {α : Type} {key : α → ℕ} {l : List α} {k : ℕ} {a : α}
    (ha : key a = k) :
    ∀ {t : List α} {b : α}, t = l → findByKey key l k = some b →
      findByKey key (updateByKey key l k a) k = some a := by
  induction l with
  | nil => intro t b _ hb; simp [findByKey] at hb
  | cons x t ih =>
      intro _ b _ hb
      rw [updateByKey_cons]
      by_cases h : (key x == k) = true
      · rw [h, if_pos rfl]
        exact findByKey_cons_self (by simp [ha])
      · rw [Bool.not_eq_true] at h
        rw [h]
        simp only [Bool.false_eq_true, if_false]
        rw [findByKey_cons_ne h]
        rw [findByKey_cons_ne h] at hb
        exact ih rfl hb

/-- Effect of a label write on any additive column total: the contribution
of the (unique) row with that label is replaced. -/
theorem sum_map_updateByKey {α : Type} {key : α → ℕ} (g : α → ℚ) :
    ∀ {l : List α}, (l.map key).Nodup → ∀ {k : ℕ} {a b : α},
      findByKey key l k = some b → key a = k →
      ((updateByKey key l k a).map g).sum = (l.map g).sum - g b + g a := by
  intro l
  induction l with
  | nil => intro _ k a b hb; simp [findByKey] at hb
  | cons x t ih =>
      intro nd k a b hb ha
      simp only [List.map_cons, List.nodup_cons] at nd
      rw [updateByKey_cons]
      by_cases h : (key x == k) = true
      · have hxk : key x = k := beq_iff_eq.mp h
        have hbx : b = x := by
          rw [findByKey_cons_self h] at hb
          exact (Option.some.inj hb).symm
        have htail : ∀ y ∈ t, key y ≠ k := by
          intro y hy hk
          exact nd.1 (by rw [hxk, ← hk]; exact List.mem_map_of_mem key hy)
        rw [h, if_pos rfl, updateByKey_of_forall_ne htail, hbx]
        simp only [List.map_cons, List.sum_cons]
        ring
      · rw [Bool.not_eq_true] at h
        rw [findByKey_cons_ne h] at hb
        rw [h]
        simp only [Bool.false_eq_true, if_false, List.map_cons, List.sum_cons]
        rw [ih nd.2 hb ha]
        ring

/-! Generic list facts used by the pass analysis. -/

/-- Composition of two elementwise relations between lists. -/
theorem forall₂_comp {α β γ : Type} {R : α → β → Prop} {S : β → γ → Prop} {T : α → γ → Prop}
    (h : ∀ a b c, R a b → S b c → T a c) :
    ∀ {l1 : List α} {l2 : List β} {l3 : List γ},
      List.Forall₂ R l1 l2 → List.Forall₂ S l2 l3 → List.Forall₂ T l1 l3 := by
  intro l1 l2 l3 h12
  induction h12 generalizing l3 with
  | nil =>
      intro h23
      cases h23
      exact List.Forall₂.nil
  | cons hab htail ih =>
      intro h23
      cases h23 with
      | cons hbc htail2 => exact List.Forall₂.cons (h _ _ _ hab hbc) (ih htail2)

/-- Every element of the right list of an elementwise relation has a related
element on the left. -/
theorem forall₂_mem_right {α β : Type} {R : α → β → Prop} :
    ∀ {l1 : List α} {l2 : List β}, List.Forall₂ R l1 l2 → ∀ b ∈ l2, ∃ a ∈ l1, R a b := by
  intro l1 l2 h
  induction h with
  | nil => intro b hb; simp at hb
  | cons hab _ ih =>
      intro b hb
      rcases List.mem_cons.mp hb with rfl | hb2
      · exact ⟨_, by simp, hab⟩
      · rcases ih b hb2 with ⟨a, ha, hr⟩
        exact ⟨a, by simp [ha], hr⟩

/-- A pointwise map produces an elementwise-related list. -/
theorem forall₂_map_pointwise {α β : Type} {R : α → β → Prop} {l : List α} {f : α → β}
    (h : ∀ x ∈ l, R x (f x)) : List.Forall₂ R l (l.map f) := by
  induction l with
  | nil => exact List.Forall₂.nil
  | cons x t ih =>
      exact List.Forall₂.cons (h x (by simp)) (ih fun y hy => h y (by simp [hy]))

/-- Counting positive values never grows along an elementwise domination. -/
theorem countP_mono_forall₂ {α β : Type} (va : α → ℚ) (vb : β → ℚ) :
    ∀ {l1 : List α} {l2 : List β}, List.Forall₂ (fun a b => vb b ≤ va a) l1 l2 →
      (l2.countP fun x => decide (0 < vb x)) ≤ l1.countP fun x => decide (0 < va x) := by
  intro l1 l2 h
  induction h with
  | nil => simp
  | @cons a b l1' l2' hab _ ih =>
      rw [List.countP_cons, List.countP_cons]
      have h2 : (if (decide (0 < vb b)) = true then 1 else 0)
          ≤ (if (decide (0 < va a)) = true then 1 else 0) := by
        by_cases hb : 0 < vb b
        · have ha : 0 < va a := lt_of_lt_of_le hb hab
          simp [hb, ha]
        · simp [hb]
      omega

/-- Counting positive values strictly drops along an elementwise domination
when some previously-positive label has only nonpositive values afterwards. -/
theorem countP_strict_forall₂ {α β : Type} (ka : α → ℕ) (kb : β → ℕ) (va : α → ℚ) (vb : β → ℚ) :
    ∀ {l1 : List α} {l2 : List β},
      List.Forall₂ (fun a b => ka a = kb b ∧ vb b ≤ va a) l1 l2 →
      ∀ lab : ℕ, (∃ a ∈ l1, ka a = lab ∧ 0 < va a) →
        (∀ b ∈ l2, kb b = lab → vb b ≤ 0) →
        (l2.countP fun x => decide (0 < vb x)) < l1.countP fun x => decide (0 < va x) := by
  intro l1 l2 h
  induction h with
  | nil =>
      intro lab hex _
      rcases hex with ⟨a, ha, _⟩
      simp at ha
  | @cons a b l1' l2' hab htail ih =>
      intro lab hex hall
      rw [List.countP_cons, List.countP_cons]
      rcases hex with ⟨a', ha', hk', hv'⟩
      rcases List.mem_cons.mp ha' with rfl | hmem
      · have hb0 : vb b ≤ 0 := hall b (by simp) (by rw [← hab.1, hk'])
        have hbf : (decide (0 < vb b)) = false := by
          simp only [decide_eq_false_iff_not]
          exact not_lt.mpr hb0
        have haf : (decide (0 < va a')) = true := by simp [hv']
        have hmono := countP_mono_forall₂ va vb (htail.imp fun a b h => h.2)
        have e1 : (if (decide (0 < vb b)) = true then 1 else 0) = 0 := by
          rw [hbf]
          simp
        have e2 : (if (decide (0 < va a')) = true then 1 else 0) = 1 := by
          rw [haf]
          simp
        rw [e1, e2]
        omega
      · have ih2 := ih lab ⟨a', hmem, hk', hv'⟩ fun b' hb' => hall b' (by simp [hb'])
        have h2 : (if (decide (0 < vb b)) = true then 1 else 0)
            ≤ (if (decide (0 < va a)) = true then 1 else 0) := by
          by_cases hb : 0 < vb b
          · have ha : 0 < va a := lt_of_lt_of_le hb hab.2
            simp [hb, ha]
          · simp [hb]
        omega

/-- A sum of zeros is zero. -/
theorem sum_map_zero {α : Type} (l : List α) : (l.map fun _ => (0 : ℚ)).sum = 0 := by
  induction l with
  | nil => rfl
  | cons x t ih => simp [ih]

/-- A sum of nonpositive rationals is nonpositive. -/
theorem sum_nonpos_of_forall : ∀ {l : List ℚ}, (∀ x ∈ l, x ≤ 0) → l.sum ≤ 0 := by
  intro l
  induction l with
  | nil => intro _; simp
  | cons x t ih =>
      intro h
      rw [List.sum_cons]
      exact add_nonpos (h x (by simp)) (ih fun y hy => h y (by simp [hy]))

/-- Zipping two equal-length lists extended by one element each. -/
theorem zip_append_one {α β : Type} :
    ∀ {a : List α} {b : List β}, a.length = b.length → ∀ (x : α) (y : β),
      (a ++ [x]).zip (b ++ [y]) = a.zip b ++ [(x, y)] := by
  intro a
  induction a with
  | nil =>
      intro b h x y
      match b with
      | [] => rfl
      | z :: t => simp at h
  | cons u a' ih =>
      intro b h x y
      match b with
      | [] => simp at h
      | v :: b' =>
          simp only [List.length_cons, Nat.add_right_cancel_iff] at h
          simp only [List.cons_append, List.zip_cons_cons]
          rw [ih h]

/-- Appending one assignment changes the fraction total of a label by the
appended fraction when the labels agree, and not at all otherwise. -/
theorem fracSum_append (l : List (ℕ × ℚ)) (k : ℕ) (f : ℚ) (rid : ℕ) :
    fracSum (l ++ [(k, f)]) rid = fracSum l rid + if k = rid then f else 0 := by
  unfold fracSum
  rw [List.filter_append, List.map_append, List.sum_append]
  congr 1
  by_cases h : k = rid
  · simp [h]
  · simp [h]

/-- A label write that preserves the total capacity (and the label) of the
written row preserves the capacity of every label. -/
theorem capacityOf_updateByKey {rs : List ResourceRow} {k : ℕ} {r1 r0 : ResourceRow}
    (hb : findByKey ResourceRow.rid rs k = some r0) (hk : r1.rid = k)
    (hcap : r1.capacity = r0.capacity) (rid : ℕ) :
    capacityOf (updateByKey ResourceRow.rid rs k r1) rid = capacityOf rs rid := by
  by_cases h : rid = k
  · subst h
    unfold capacityOf
    rw [findByKey_updateByKey_self hk rfl hb, hb]
    exact hcap
  · unfold capacityOf
    rw [findByKey_updateByKey_ne hk h]

/-- Assigned-MW sums only read total capacities, which the write preserves. -/
theorem assignedRows_congr {rs rs' : List ResourceRow}
    (h : ∀ rid, capacityOf rs' rid = capacityOf rs rid) :
    ∀ l : List (ℕ × ℚ), (l.map fun e => e.2 * capacityOf rs' e.1).sum
      = (l.map fun e => e.2 * capacityOf rs e.1).sum := by
  intro l
  induction l with
  | nil => rfl
  | cons e t ih => simp [ih, h]

/-- The assigned-MW total of a node is unchanged by a capacity-preserving
resource write. -/
theorem nodeAssignedTotal_congr {rs rs' : List ResourceRow}
    (h : ∀ rid, capacityOf rs' rid = capacityOf rs rid) (n : NodeRow) :
    nodeAssignedTotal rs' n = nodeAssignedTotal rs n :=
  assignedRows_congr h _

/-- Appending one assignment adds fraction times capacity of the matched
label to the assigned-MW total. -/
theorem assignedRows_append (rs : List ResourceRow) (l : List (ℕ × ℚ)) (k : ℕ) (f : ℚ) :
    ((l ++ [(k, f)]).map fun e => e.2 * capacityOf rs e.1).sum
      = (l.map fun e => e.2 * capacityOf rs e.1).sum + f * capacityOf rs k := by
  rw [List.map_append, List.sum_append]
  simp

/-- Uniform description of `apportion`: with `d` the MW amount actually
transferred — the minimum of remaining demand and remaining capacity — the
branches of the source collapse to one formula (the branch at equality gives
the same row values as the other branch). -/
theorem apportion_spec (resource : ResourceRow) (node : NodeRow) :
    apportion resource node =
      ({ resource with r_cap := resource.r_cap - min node.r_cap resource.r_cap },
       { node with
          r_cap := node.r_cap - min node.r_cap resource.r_cap,
          site_id := node.site_id ++ [resource.rid],
          site_fracs := node.site_fracs
            ++ [min node.r_cap resource.r_cap / resource.capacity] }) := by
  unfold apportion
  by_cases h : resource.r_cap < node.r_cap
  · rw [if_pos h, min_eq_right (le_of_lt h)]
    simp
  · rw [if_neg h, min_eq_left (le_of_not_lt h)]
    simp

/-! Effect of one apportionment (`applyPair`) on the working frames. -/

/-- Fields of the updated resource row. -/
theorem newR_fields (r0 : ResourceRow) (n0 : NodeRow) :
    (apportion r0 n0).1.rid = r0.rid ∧ (apportion r0 n0).1.capacity = r0.capacity ∧
    (apportion r0 n0).1.r_cap = r0.r_cap - min n0.r_cap r0.r_cap := by
  rw [apportion_spec]
  exact ⟨rfl, rfl, rfl⟩

/-- Fields of the updated node row. -/
theorem newN_fields (r0 : ResourceRow) (n0 : NodeRow) :
    (apportion r0 n0).2.nid = n0.nid ∧ (apportion r0 n0).2.capacity = n0.capacity ∧
    (apportion r0 n0).2.site_id = n0.site_id ++ [r0.rid] ∧
    (apportion r0 n0).2.site_fracs
      = n0.site_fracs ++ [min n0.r_cap r0.r_cap / r0.capacity] ∧
    (apportion r0 n0).2.r_cap = n0.r_cap - min n0.r_cap r0.r_cap := by
  rw [apportion_spec]
  exact ⟨rfl, rfl, rfl, rfl, rfl⟩

/-- Fraction totals of the updated node row. -/
theorem fracFor_newN (r0 : ResourceRow) (n0 : NodeRow)
    (hlen : n0.site_id.length = n0.site_fracs.length) (rid : ℕ) :
    fracFor (apportion r0 n0).2 rid
      = fracFor n0 rid
        + if r0.rid = rid then min n0.r_cap r0.r_cap / r0.capacity else 0 := by
  unfold fracFor
  rw [(newN_fields r0 n0).2.2.1, (newN_fields r0 n0).2.2.2.1, zip_append_one hlen]
  exact fracSum_append _ _ _ _

/-- Assigned-MW total of the updated node row. -/
theorem nodeAssignedTotal_newN (rs : List ResourceRow) (r0 : ResourceRow) (n0 : NodeRow)
    (hlen : n0.site_id.length = n0.site_fracs.length) :
    nodeAssignedTotal rs (apportion r0 n0).2
      = nodeAssignedTotal rs n0
        + (min n0.r_cap r0.r_cap / r0.capacity) * capacityOf rs r0.rid := by
  unfold nodeAssignedTotal
  rw [(newN_fields r0 n0).2.2.1, (newN_fields r0 n0).2.2.2.1, zip_append_one hlen]
  exact assignedRows_append _ _ _ _

/-- Unfolding of `applyPair` when both label lookups succeed. -/
theorem applyPair_eq_found {rs : List ResourceRow} {ns : List NodeRow} {ri ni : ℕ}
    {r0 : ResourceRow} {n0 : NodeRow}
    (hr : findByKey ResourceRow.rid rs ri = some r0)
    (hn : findByKey NodeRow.nid ns ni = some n0) :
    applyPair (rs, ns) (ri, ni) =
      (updateByKey ResourceRow.rid rs ri (apportion r0 n0).1,
       updateByKey NodeRow.nid ns ni (apportion r0 n0).2) := by
  simp [applyPair, hr, hn]

section ApplyPairStep

variable {rs : List ResourceRow} {ns : List NodeRow} {ri ni : ℕ}
variable {r0 : ResourceRow} {n0 : NodeRow}

/-- One apportionment preserves the loop invariant, provided the two rows it
touches still have remaining capacity and remaining demand (which holds for
every winning pair of a pass). -/
theorem applyPair_inv (inv : AllocInv rs ns)
    (hr : findByKey ResourceRow.rid rs ri = some r0)
    (hn : findByKey NodeRow.nid ns ni = some n0)
    (hrpos : 0 < r0.r_cap) (hnpos : 0 < n0.r_cap) :
    AllocInv (applyPair (rs, ns) (ri, ni)).1 (applyPair (rs, ns) (ri, ni)).2 := by
  obtain ⟨hrmem, hrk⟩ := findByKey_some hr
  obtain ⟨hnmem, hnk⟩ := findByKey_some hn
  have hf1 := newR_fields r0 n0
  have hf2 := newN_fields r0 n0
  have h1rid : (apportion r0 n0).1.rid = ri := hf1.1.trans hrk
  have h2nid : (apportion r0 n0).2.nid = ni := hf2.1.trans hnk
  have hlen := inv.lenEq n0 hnmem
  have hcap0 : capacityOf rs r0.rid = r0.capacity := by
    unfold capacityOf
    rw [hrk, hr]
  have hcapOf : ∀ rid, capacityOf (updateByKey ResourceRow.rid rs ri (apportion r0 n0).1) rid
      = capacityOf rs rid := capacityOf_updateByKey hr h1rid hf1.2.1
  have hne0 : r0.capacity ≠ 0 := ne_of_gt (inv.posCap r0 hrmem)
  have hnotin : r0.rid ∉ n0.site_id := by
    intro hin
    rcases inv.siteSpent n0 hnmem r0.rid hin with hleft | hright
    · exact absurd hrpos (not_lt.mpr (hleft r0 hrmem rfl))
    · exact absurd hnpos (not_lt.mpr hright)
  have hsum : ∀ rid, sumAssigned (updateByKey NodeRow.nid ns ni (apportion r0 n0).2) rid
      = sumAssigned ns rid - fracFor n0 rid + fracFor (apportion r0 n0).2 rid := by
    intro rid
    exact sum_map_updateByKey (fun n => fracFor n rid) inv.ndn hn h2nid
  rw [applyPair_eq_found hr hn]
  constructor
  · rw [updateByKey_map_key _ _ _ _ h1rid]
    exact inv.ndr
  · rw [updateByKey_map_key _ _ _ _ h2nid]
    exact inv.ndn
  · intro r hr2
    rcases mem_updateByKey hr2 with rfl | ⟨hmem, _⟩
    · rw [hf1.2.1]
      exact inv.posCap r0 hrmem
    · exact inv.posCap r hmem
  · intro r hr2
    rcases mem_updateByKey hr2 with rfl | ⟨hmem, _⟩
    · rw [hf1.2.2]
      exact sub_nonneg.mpr (min_le_right _ _)
    · exact inv.nnR r hmem
  · intro n hn2
    rcases mem_updateByKey hn2 with rfl | ⟨hmem, _⟩
    · rw [hf2.2.2.2.2]
      exact sub_nonneg.mpr (min_le_left _ _)
    · exact inv.nnN n hmem
  · intro n hn2
    rcases mem_updateByKey hn2 with rfl | ⟨hmem, _⟩
    · rw [hf2.2.2.1, hf2.2.2.2.1]
      simp [hlen]
    · exact inv.lenEq n hmem
  · intro r hr2
    rcases mem_updateByKey hr2 with rfl | ⟨hmem, hne⟩
    · rw [hsum, fracFor_newN r0 n0 hlen, h1rid, hf1.2.1, hf1.2.2]
      rw [if_pos (hrk.trans rfl)]
      have hacc := inv.accR r0 hrmem
      rw [hrk] at hacc
      have : (sumAssigned ns ri - fracFor n0 ri
          + (fracFor n0 ri + min n0.r_cap r0.r_cap / r0.capacity)) * r0.capacity
          = sumAssigned ns ri * r0.capacity
            + (min n0.r_cap r0.r_cap / r0.capacity) * r0.capacity := by ring
      rw [this, div_mul_cancel₀ _ hne0, hacc]
      ring
    · rw [hsum, fracFor_newN r0 n0 hlen]
      have hite : (if r0.rid = r.rid then min n0.r_cap r0.r_cap / r0.capacity else 0) = 0 := by
        rw [if_neg]
        intro hcontra
        exact hne (by rw [← hcontra, hrk])
      rw [hite]
      have : sumAssigned ns r.rid - fracFor n0 r.rid + (fracFor n0 r.rid + 0)
          = sumAssigned ns r.rid := by ring
      rw [this]
      exact inv.accR r hmem
  · intro n hn2
    rcases mem_updateByKey hn2 with rfl | ⟨hmem, _⟩
    · rw [nodeAssignedTotal_congr hcapOf, nodeAssignedTotal_newN rs r0 n0 hlen, hcap0,
        div_mul_cancel₀ _ hne0, hf2.2.1, hf2.2.2.2.2]
      have hacc := inv.accN n0 hnmem
      linarith
    · rw [nodeAssignedTotal_congr hcapOf]
      exact inv.accN n hmem
  · intro n hn2
    rcases mem_updateByKey hn2 with rfl | ⟨hmem, _⟩
    · rw [hf2.2.2.1]
      rw [List.nodup_append]
      exact ⟨inv.siteNodup n0 hnmem, List.nodup_singleton _, by simpa using hnotin⟩
    · exact inv.siteNodup n hmem
  · intro n hn2 rid hrid
    rcases mem_updateByKey hn2 with rfl | ⟨hmem, hnen⟩
    · rw [hf2.2.2.1] at hrid
      rcases List.mem_append.mp hrid with hold | hnew
      · have hleft : ∀ r ∈ rs, r.rid = rid → r.r_cap ≤ 0 := by
          rcases inv.siteSpent n0 hnmem rid hold with hleft | hright
          · exact hleft
          · exact absurd hnpos (not_lt.mpr hright)
        have hridne : rid ≠ ri := by
          intro hcontra
          have := hleft r0 hrmem (hrk.trans hcontra.symm)
          exact absurd hrpos (not_lt.mpr this)
        left
        intro r hr2 hkeq
        rcases mem_updateByKey hr2 with rfl | ⟨hmem2, _⟩
        · exact absurd (h1rid.symm.trans hkeq) hridne.symm
        · exact hleft r hmem2 hkeq
      · have hridr0 : rid = r0.rid := by simpa using hnew
        rcases min_choice n0.r_cap r0.r_cap with hmin | hmin
        · right
          rw [hf2.2.2.2.2, hmin]
          simp
        · left
          intro r hr2 hkeq
          rcases mem_updateByKey hr2 with rfl | ⟨_, hne2⟩
          · rw [hf1.2.2, hmin]
            simp
          · exact absurd (hkeq.trans (hridr0.trans hrk)) hne2
    · rcases inv.siteSpent n hmem rid hrid with hleft | hright
      · left
        intro r hr2 hkeq
        rcases mem_updateByKey hr2 with rfl | ⟨hmem2, _⟩
        · have hri_rid : ri = rid := h1rid.symm.trans hkeq
          exact absurd hrpos (not_lt.mpr (hleft r0 hrmem (hrk.trans hri_rid)))
        · exact hleft r hmem2 hkeq
      · right
        exact hright

end ApplyPairStep

section ApplyPairMore

variable {rs : List ResourceRow} {ns : List NodeRow} {ri ni : ℕ}
variable {r0 : ResourceRow} {n0 : NodeRow}

/-- One apportionment relates the old and new resource frames elementwise:
labels and total capacities preserved, remaining capacities non-increasing. -/
theorem applyPair_forall₂R (inv : AllocInv rs ns)
    (hr : findByKey ResourceRow.rid rs ri = some r0)
    (hn : findByKey NodeRow.nid ns ni = some n0) :
    List.Forall₂ RelR rs (applyPair (rs, ns) (ri, ni)).1 := by
  obtain ⟨hrmem, hrk⟩ := findByKey_some hr
  obtain ⟨hnmem, hnk⟩ := findByKey_some hn
  have hf1 := newR_fields r0 n0
  rw [applyPair_eq_found hr hn]
  show List.Forall₂ RelR rs (rs.map _)
  apply forall₂_map_pointwise
  intro x hx
  by_cases h : (x.rid == ri) = true
  · have hxr : x = r0 := by
      refine eq_of_key_nodup inv.ndr hx hrmem ?_
      rw [beq_iff_eq.mp h, hrk]
    simp only [h, if_true]
    rw [hxr]
    refine ⟨hf1.1.symm, hf1.2.1.symm, ?_⟩
    rw [hf1.2.2]
    exact sub_le_self _ (le_min (inv.nnN n0 hnmem) (inv.nnR r0 hrmem))
  · rw [Bool.not_eq_true] at h
    simp only [h, Bool.false_eq_true, if_false]
    exact ⟨rfl, rfl, le_refl _⟩

/-- One apportionment relates the old and new node frames elementwise. -/
theorem applyPair_forall₂N (inv : AllocInv rs ns)
    (hr : findByKey ResourceRow.rid rs ri = some r0)
    (hn : findByKey NodeRow.nid ns ni = some n0) :
    List.Forall₂ RelN ns (applyPair (rs, ns) (ri, ni)).2 := by
  obtain ⟨hrmem, hrk⟩ := findByKey_some hr
  obtain ⟨hnmem, hnk⟩ := findByKey_some hn
  have hf2 := newN_fields r0 n0
  rw [applyPair_eq_found hr hn]
  show List.Forall₂ RelN ns (ns.map _)
  apply forall₂_map_pointwise
  intro x hx
  by_cases h : (x.nid == ni) = true
  · have hxn : x = n0 := by
      refine eq_of_key_nodup inv.ndn hx hnmem ?_
      rw [beq_iff_eq.mp h, hnk]
    simp only [h, if_true]
    rw [hxn]
    refine ⟨hf2.1.symm, hf2.2.1.symm, ?_⟩
    rw [hf2.2.2.2.2]
    exact sub_le_self _ (le_min (inv.nnN n0 hnmem) (inv.nnR r0 hrmem))
  · rw [Bool.not_eq_true] at h
    simp only [h, Bool.false_eq_true, if_false]
    exact ⟨rfl, rfl, le_refl _⟩

/-- One apportionment removes the same MW amount from the total remaining
capacity and from the total remaining demand. -/
theorem applyPair_totals (inv : AllocInv rs ns)
    (hr : findByKey ResourceRow.rid rs ri = some r0)
    (hn : findByKey NodeRow.nid ns ni = some n0) :
    resTotal (applyPair (rs, ns) (ri, ni)).1 - nodeTotal (applyPair (rs, ns) (ri, ni)).2
      = resTotal rs - nodeTotal ns := by
  have hf1 := newR_fields r0 n0
  have hf2 := newN_fields r0 n0
  have h1rid : (apportion r0 n0).1.rid = ri := hf1.1.trans (findByKey_some hr).2
  have h2nid : (apportion r0 n0).2.nid = ni := hf2.1.trans (findByKey_some hn).2
  rw [applyPair_eq_found hr hn]
  have h1 : resTotal (updateByKey ResourceRow.rid rs ri (apportion r0 n0).1)
      = resTotal rs - r0.r_cap + (apportion r0 n0).1.r_cap :=
    sum_map_updateByKey ResourceRow.r_cap inv.ndr hr h1rid
  have h2 : nodeTotal (updateByKey NodeRow.nid ns ni (apportion r0 n0).2)
      = nodeTotal ns - n0.r_cap + (apportion r0 n0).2.r_cap :=
    sum_map_updateByKey NodeRow.r_cap inv.ndn hn h2nid
  show resTotal _ - nodeTotal _ = _
  rw [h1, h2, hf1.2.2, hf2.2.2.2.2]
  ring

/-- Resource rows with other labels are untouched by one apportionment. -/
theorem applyPair_findR_ne
    (hr : findByKey ResourceRow.rid rs ri = some r0)
    (hn : findByKey NodeRow.nid ns ni = some n0) {k : ℕ} (hne : k ≠ ri) :
    findByKey ResourceRow.rid (applyPair (rs, ns) (ri, ni)).1 k
      = findByKey ResourceRow.rid rs k := by
  rw [applyPair_eq_found hr hn]
  exact findByKey_updateByKey_ne ((newR_fields r0 n0).1.trans (findByKey_some hr).2) hne

/-- Node rows with other labels are untouched by one apportionment. -/
theorem applyPair_findN_ne
    (hr : findByKey ResourceRow.rid rs ri = some r0)
    (hn : findByKey NodeRow.nid ns ni = some n0) {k : ℕ} (hne : k ≠ ni) :
    findByKey NodeRow.nid (applyPair (rs, ns) (ri, ni)).2 k
      = findByKey NodeRow.nid ns k := by
  rw [applyPair_eq_found hr hn]
  exact findByKey_updateByKey_ne ((newN_fields r0 n0).1.trans (findByKey_some hn).2) hne

/-- One apportionment zeroes the touched resource or the touched node: after
it, either every row with the touched resource label has no remaining
capacity, or every row with the touched node label has no remaining demand. -/
theorem applyPair_zeroes
    (hr : findByKey ResourceRow.rid rs ri = some r0)
    (hn : findByKey NodeRow.nid ns ni = some n0) :
    (∀ r ∈ (applyPair (rs, ns) (ri, ni)).1, r.rid = ri → r.r_cap ≤ 0) ∨
    (∀ n ∈ (applyPair (rs, ns) (ri, ni)).2, n.nid = ni → n.r_cap ≤ 0) := by
  have hf1 := newR_fields r0 n0
  have hf2 := newN_fields r0 n0
  rcases min_choice n0.r_cap r0.r_cap with hmin | hmin
  · right
    rw [applyPair_eq_found hr hn]
    intro n hn2 hk
    rcases mem_updateByKey hn2 with rfl | ⟨_, hne⟩
    · rw [hf2.2.2.2.2, hmin]
      simp
    · exact absurd hk hne
  · left
    rw [applyPair_eq_found hr hn]
    intro r hr2 hk
    rcases mem_updateByKey hr2 with rfl | ⟨_, hne⟩
    · rw [hf1.2.2, hmin]
      simp
    · exact absurd hk hne

end ApplyPairMore

/-! The fold of apportionments over the winning pairs of one pass. -/

/-- Transitivity of the resource step relation. -/
theorem relR_trans (a b c : ResourceRow) (h1 : RelR a b) (h2 : RelR b c) : RelR a c :=
  ⟨h1.1.trans h2.1, h1.2.1.trans h2.2.1, le_trans h2.2.2 h1.2.2⟩

/-- Transitivity of the node step relation. -/
theorem relN_trans (a b c : NodeRow) (h1 : RelN a b) (h2 : RelN b c) : RelN a c :=
  ⟨h1.1.trans h2.1, h1.2.1.trans h2.2.1, le_trans h2.2.2 h1.2.2⟩

/-- Reflexivity of the resource step relation along a frame. -/
theorem forall₂_relR_refl (rs : List ResourceRow) : List.Forall₂ RelR rs rs :=
  List.forall₂_same.mpr fun _ _ => ⟨rfl, rfl, le_refl _⟩

/-- Reflexivity of the node step relation along a frame. -/
theorem forall₂_relN_refl (ns : List NodeRow) : List.Forall₂ RelN ns ns :=
  List.forall₂_same.mpr fun _ _ => ⟨rfl, rfl, le_refl _⟩

/-- Soundness of a list of winning label pairs with respect to a state: the
resource labels are pairwise distinct, the node labels are pairwise distinct,
and every pair resolves to a resource with remaining capacity and a node with
remaining demand. -/
def GoodPairs (rs : List ResourceRow) (ns : List NodeRow) (l : List (ℕ × ℕ)) : Prop :=
  ((l.map Prod.fst).Nodup ∧ (l.map Prod.snd).Nodup) ∧
  ∀ pr ∈ l, (∃ x, findByKey ResourceRow.rid rs pr.1 = some x ∧ 0 < x.r_cap) ∧
            (∃ y, findByKey NodeRow.nid ns pr.2 = some y ∧ 0 < y.r_cap)

/-- After the head apportionment, the remaining pairs are still sound: their
labels are untouched. -/
theorem goodPairs_tail {rs : List ResourceRow} {ns : List NodeRow} {pr : ℕ × ℕ}
    {tl : List (ℕ × ℕ)} (good : GoodPairs rs ns (pr :: tl)) :
    GoodPairs (applyPair (rs, ns) pr).1 (applyPair (rs, ns) pr).2 tl := by
  obtain ⟨⟨nf, nsnd⟩, hmem⟩ := good
  obtain ⟨⟨r0, hr, hrpos⟩, ⟨n0, hn, hnpos⟩⟩ := hmem pr (by simp)
  simp only [List.map_cons, List.nodup_cons] at nf nsnd
  refine ⟨⟨nf.2, nsnd.2⟩, ?_⟩
  intro pr2 hpr2
  obtain ⟨⟨x, hx, hxpos⟩, ⟨y, hy, hypos⟩⟩ := hmem pr2 (by simp [hpr2])
  have hne1 : pr2.1 ≠ pr.1 := by
    intro hcontra
    exact nf.1 (hcontra ▸ List.mem_map_of_mem Prod.fst hpr2)
  have hne2 : pr2.2 ≠ pr.2 := by
    intro hcontra
    exact nsnd.1 (hcontra ▸ List.mem_map_of_mem Prod.snd hpr2)
  refine ⟨⟨x, ?_, hxpos⟩, ⟨y, ?_, hypos⟩⟩
  · rw [applyPair_findR_ne hr hn hne1]
    exact hx
  · rw [applyPair_findN_ne hr hn hne2]
    exact hy

/-- The fold of all apportionments of one pass preserves the invariant, moves
every row along the step relation, and preserves the difference between total
remaining capacity and total remaining demand. -/
theorem foldPairs_spec :
    ∀ (l : List (ℕ × ℕ)) (rs : List ResourceRow) (ns : List NodeRow),
      AllocInv rs ns → GoodPairs rs ns l →
      AllocInv (l.foldl applyPair (rs, ns)).1 (l.foldl applyPair (rs, ns)).2 ∧
      List.Forall₂ RelR rs (l.foldl applyPair (rs, ns)).1 ∧
      List.Forall₂ RelN ns (l.foldl applyPair (rs, ns)).2 ∧
      resTotal (l.foldl applyPair (rs, ns)).1 - nodeTotal (l.foldl applyPair (rs, ns)).2
        = resTotal rs - nodeTotal ns := by
  intro l
  induction l with
  | nil =>
      intro rs ns inv _
      exact ⟨inv, forall₂_relR_refl rs, forall₂_relN_refl ns, rfl⟩
  | cons pr tl ih =>
      intro rs ns inv good
      obtain ⟨⟨r0, hr, hrpos⟩, ⟨n0, hn, hnpos⟩⟩ := good.2 pr (by simp)
      have inv1 := applyPair_inv inv hr hn hrpos hnpos
      have f2r := applyPair_forall₂R inv hr hn
      have f2n := applyPair_forall₂N inv hr hn
      have tot1 := applyPair_totals inv hr hn
      have good2 := goodPairs_tail good
      have hstep := ih (applyPair (rs, ns) pr).1 (applyPair (rs, ns) pr).2 inv1 good2
      rw [List.foldl_cons]
      refine ⟨hstep.1, ?_, ?_, ?_⟩
      · exact forall₂_comp relR_trans f2r hstep.2.1
      · exact forall₂_comp relN_trans f2n hstep.2.2.1
      · rw [hstep.2.2.2, tot1]

/-- A nonempty pass fold strictly decreases the termination measure: the head
apportionment zeroes its resource or its node, and nothing revives later. -/
theorem foldPairs_strict (l : List (ℕ × ℕ)) (rs : List ResourceRow) (ns : List NodeRow)
    (inv : AllocInv rs ns) (good : GoodPairs rs ns l) (hne : l ≠ []) :
    countPos (l.foldl applyPair (rs, ns)).1 (l.foldl applyPair (rs, ns)).2
      < countPos rs ns := by
  match l with
  | [] => exact absurd rfl hne
  | pr :: tl =>
      obtain ⟨⟨r0, hr, hrpos⟩, ⟨n0, hn, hnpos⟩⟩ := good.2 pr (by simp)
      obtain ⟨hrmem, hrk⟩ := findByKey_some hr
      obtain ⟨hnmem, hnk⟩ := findByKey_some hn
      have inv1 := applyPair_inv inv hr hn hrpos hnpos
      have f2r := applyPair_forall₂R inv hr hn
      have f2n := applyPair_forall₂N inv hr hn
      have good2 := goodPairs_tail good
      have hstep := foldPairs_spec tl _ _ inv1 good2
      rw [List.foldl_cons]
      have chainR : List.Forall₂ RelR rs (tl.foldl applyPair (applyPair (rs, ns) pr)).1 :=
        forall₂_comp relR_trans f2r hstep.2.1
      have chainN : List.Forall₂ RelN ns (tl.foldl applyPair (applyPair (rs, ns) pr)).2 :=
        forall₂_comp relN_trans f2n hstep.2.2.1
      have hmonoR := countP_mono_forall₂ ResourceRow.r_cap ResourceRow.r_cap
        (chainR.imp fun a b h => h.2.2)
      have hmonoN := countP_mono_forall₂ NodeRow.r_cap NodeRow.r_cap
        (chainN.imp fun a b h => h.2.2)
      rcases applyPair_zeroes hr hn with hres | hnode
      · have hstrict := countP_strict_forall₂ ResourceRow.rid ResourceRow.rid
          ResourceRow.r_cap ResourceRow.r_cap
          (chainR.imp fun a b h => ⟨h.1, h.2.2⟩) pr.1
          ⟨r0, hrmem, hrk, hrpos⟩ ?_
        · unfold countPos
          omega
        · intro b hb hbk
          obtain ⟨a, ha, hab⟩ := forall₂_mem_right hstep.2.1 b hb
          have ha0 : a.r_cap ≤ 0 := hres a ha (hab.1.trans hbk)
          exact le_trans hab.2.2 ha0
      · have hstrict := countP_strict_forall₂ NodeRow.nid NodeRow.nid
          NodeRow.r_cap NodeRow.r_cap
          (chainN.imp fun a b h => ⟨h.1, h.2.2⟩) pr.2
          ⟨n0, hnmem, hnk, hnpos⟩ ?_
        · unfold countPos
          omega
        · intro b hb hbk
          obtain ⟨a, ha, hab⟩ := forall₂_mem_right hstep.2.2.1 b hb
          have ha0 : a.r_cap ≤ 0 := hnode a ha (hab.1.trans hbk)
          exact le_trans hab.2.2 ha0

/-! Soundness of the winning pairs of a pass. -/

/-- At most one winning row per remaining node: the row components of
`winners` are pairwise distinct (each row nominates a single resource). -/
theorem winners_snd_nodup (m : ℕ) (pairs : List (ℕ × ℚ)) :
    ((winners m pairs).map Prod.snd).Nodup := by
  have hw : (winners m pairs).Nodup := (winners_fst_nodup m pairs).of_map
  refine List.Nodup.map_on ?_ hw
  intro a ha b hb hab
  have h1 := (winners_minimality ha).2.1
  have h2 := (winners_minimality hb).2.1
  have hfst : a.1 = b.1 := by rw [← h1, ← h2, hab]
  exact Prod.ext hfst hab

/-- No pass rows, no winners. -/
theorem winners_nil (m : ℕ) : winners m [] = [] := by
  refine List.filterMap_eq_nil_iff.mpr ?_
  intro p _
  rfl

/-- Reading the label column of a frame at a valid position. -/
theorem getD_map_key {α : Type} (key : α → ℕ) (l : List α) (i : ℕ) (h : i < l.length) :
    (l.map key).getD i 0 = key (l.get ⟨i, h⟩) := by
  have h2 : i < (l.map key).length := by simpa using h
  rw [List.getD_eq_getElem _ _ h2]
  simp

/-- The tree query returns a valid position into the construction list. -/
theorem queryNearestGo_fst_lt (q : ℚ × ℚ) :
    ∀ (l : List (ℚ × ℚ)) (i : ℕ) (best : ℕ × ℚ), best.1 < i →
      (queryNearestGo q l i best).1 < i + l.length := by
  intro l
  induction l with
  | nil =>
      intro i best h
      simpa [queryNearestGo] using h
  | cons c rest ih =>
      intro i best h
      simp only [queryNearestGo]
      by_cases hc : sqDist c q < best.2
      · rw [if_pos hc]
        have := ih (i + 1) (i, sqDist c q) (by simp)
        simp only [List.length_cons]
        omega
      · rw [if_neg hc]
        have := ih (i + 1) best (by omega)
        simp only [List.length_cons]
        omega

/-- The position returned by a query against a nonempty tree is a valid
position. -/
theorem queryNearest_fst_lt (coords : List (ℚ × ℚ)) (q : ℚ × ℚ) (h : coords ≠ []) :
    (queryNearest coords q).1 < coords.length := by
  match coords with
  | [] => exact absurd rfl h
  | c :: rest =>
      show (queryNearestGo q rest 1 (0, sqDist c q)).1 < (c :: rest).length
      have := queryNearestGo_fst_lt q rest 1 (0, sqDist c q) (by norm_num)
      simp only [List.length_cons]
      omega

/-- The winning pairs of a pass are sound for the invariant state that
produced them: distinct resource labels, distinct node labels, and each pair
resolves to a resource with remaining capacity and a node with remaining
demand. -/
theorem passLabelPairs_good (rs : List ResourceRow) (ns : List NodeRow)
    (inv : AllocInv rs ns) : GoodPairs rs ns (passLabelPairs rs ns) := by
  unfold passLabelPairs
  set rl := rs.filter fun r => decide (0 < r.r_cap) with hrl
  set nl := ns.filter fun n => decide (0 < n.r_cap) with hnl
  set coords := rl.map fun r => (r.latitude, r.longitude) with hcoords
  set pairs := nl.map fun n => queryNearest coords (n.latitude, n.longitude) with hpairs
  have hrlnd : (rl.map ResourceRow.rid).Nodup :=
    ((List.filter_sublist rs).map ResourceRow.rid).nodup inv.ndr
  have hnlnd : (nl.map NodeRow.nid).Nodup :=
    ((List.filter_sublist ns).map NodeRow.nid).nodup inv.ndn
  have hplen : pairs.length = nl.length := by simp [hpairs]
  have hbound1 : ∀ pj ∈ winners rl.length pairs, pj.1 < rl.length := fun pj hpj =>
    (winners_mem.mp hpj).1
  have hbound2 : ∀ pj ∈ winners rl.length pairs, pj.2 < nl.length := fun pj hpj => by
    have := (winners_minimality hpj).1
    omega
  constructor
  · constructor
    · rw [List.map_map]
      refine List.Nodup.map_on ?_ ((winners_fst_nodup rl.length pairs).of_map)
      intro a ha b hb hab
      simp only [Function.comp] at hab
      have ha1 := hbound1 a ha
      have hb1 := hbound1 b hb
      rw [getD_map_key ResourceRow.rid rl a.1 ha1,
        getD_map_key ResourceRow.rid rl b.1 hb1] at hab
      have hget : rl.get ⟨a.1, ha1⟩ = rl.get ⟨b.1, hb1⟩ :=
        eq_of_key_nodup hrlnd (List.get_mem rl a.1 ha1) (List.get_mem rl b.1 hb1) hab
      have hfsteq : a.1 = b.1 := by
        have hrlnodup : rl.Nodup := hrlnd.of_map
        have := (List.Nodup.get_inj_iff hrlnodup).mp hget
        simpa using this
      exact List.inj_on_of_nodup_map (winners_fst_nodup rl.length pairs) ha hb hfsteq
    · rw [List.map_map]
      refine List.Nodup.map_on ?_ ((winners_fst_nodup rl.length pairs).of_map)
      intro a ha b hb hab
      simp only [Function.comp] at hab
      have ha2 := hbound2 a ha
      have hb2 := hbound2 b hb
      rw [getD_map_key NodeRow.nid nl a.2 ha2,
        getD_map_key NodeRow.nid nl b.2 hb2] at hab
      have hget : nl.get ⟨a.2, ha2⟩ = nl.get ⟨b.2, hb2⟩ :=
        eq_of_key_nodup hnlnd (List.get_mem nl a.2 ha2) (List.get_mem nl b.2 hb2) hab
      have hsndeq : a.2 = b.2 := by
        have hnlnodup : nl.Nodup := hnlnd.of_map
        have := (List.Nodup.get_inj_iff hnlnodup).mp hget
        simpa using this
      exact List.inj_on_of_nodup_map (winners_snd_nodup rl.length pairs) ha hb hsndeq
  · intro pr hpr
    obtain ⟨pj, hpj, hprpj⟩ := List.mem_map.mp hpr
    have h1 := hbound1 pj hpj
    have h2 := hbound2 pj hpj
    constructor
    · refine ⟨rl.get ⟨pj.1, h1⟩, ?_, ?_⟩
      · have hkey : pr.1 = (rl.get ⟨pj.1, h1⟩).rid := by
          rw [← hprpj]
          exact getD_map_key ResourceRow.rid rl pj.1 h1
        rw [hkey]
        have hmem : rl.get ⟨pj.1, h1⟩ ∈ rs :=
          (List.mem_filter.mp (List.get_mem rl pj.1 h1)).1
        exact findByKey_nodup_mem inv.ndr hmem
      · have hpos := (List.mem_filter.mp (List.get_mem rl pj.1 h1)).2
        simpa using hpos
    · refine ⟨nl.get ⟨pj.2, h2⟩, ?_, ?_⟩
      · have hkey : pr.2 = (nl.get ⟨pj.2, h2⟩).nid := by
          rw [← hprpj]
          exact getD_map_key NodeRow.nid nl pj.2 h2
        rw [hkey]
        have hmem : nl.get ⟨pj.2, h2⟩ ∈ ns :=
          (List.mem_filter.mp (List.get_mem nl pj.2 h2)).1
        exact findByKey_nodup_mem inv.ndn hmem
      · have hpos := (List.mem_filter.mp (List.get_mem nl pj.2 h2)).2
        simpa using hpos

/-! From one pass to the whole loop. -/

/-- Boolean emptiness in terms of the list. -/
theorem isEmpty_true_iff {α : Type} (l : List α) : l.isEmpty = true ↔ l = [] := by
  cases l <;> simp

/-- A pass with no remaining node performs no apportionment. -/
theorem passLabelPairs_of_no_nodes (rs : List ResourceRow) (ns : List NodeRow)
    (h : (ns.filter fun n => decide (0 < n.r_cap)) = []) :
    passLabelPairs rs ns = [] := by
  unfold passLabelPairs
  simp [h, winners_nil]

/-- A pass with an available resource and a remaining node apportions at
least one winning pair. -/
theorem passLabelPairs_ne_nil (rs : List ResourceRow) (ns : List NodeRow)
    (hrl : (rs.filter fun r => decide (0 < r.r_cap)) ≠ [])
    (hnl : (ns.filter fun n => decide (0 < n.r_cap)) ≠ []) :
    passLabelPairs rs ns ≠ [] := by
  unfold passLabelPairs
  set rl := rs.filter fun r => decide (0 < r.r_cap) with hrldef
  set nl := ns.filter fun n => decide (0 < n.r_cap) with hnldef
  set coords := rl.map fun r => (r.latitude, r.longitude) with hcoords
  set pairs := nl.map fun n => queryNearest coords (n.latitude, n.longitude) with hpairs
  intro hempty
  have hws : winners rl.length pairs = [] := List.map_eq_nil_iff.mp hempty
  have hpne : pairs ≠ [] := by
    intro h0
    exact hnl (List.map_eq_nil_iff.mp h0)
  obtain ⟨q, rest, hcons⟩ := List.exists_cons_of_ne_nil hpne
  have hcne : coords ≠ [] := by
    intro h0
    exact hrl (List.map_eq_nil_iff.mp h0)
  have hq : q ∈ pairs := by rw [hcons]; simp
  have hqlt : q.1 < rl.length := by
    obtain ⟨n, _, rfl⟩ := List.mem_map.mp hq
    have hlt := queryNearest_fst_lt coords (n.latitude, n.longitude) hcne
    simpa [hcoords] using hlt
  have h0len : 0 < pairs.length := by rw [hcons]; simp
  have hget : (pairs.getD 0 (0, 0)).1 = q.1 := by rw [hcons]; rfl
  obtain ⟨j, hjmem⟩ := winners_exists hqlt 0 h0len hget
  rw [hws] at hjmem
  exact List.not_mem_nil _ hjmem

/-- Master description of a successful pass: invariant preserved, rows moved
along the step relations, capacity-minus-demand difference preserved, and the
termination measure strictly decreased whenever a node still had demand. -/
theorem onePass_spec {rs ns rs2 ns2} (inv : AllocInv rs ns)
    (h : onePass rs ns = some (rs2, ns2)) :
    AllocInv rs2 ns2 ∧ List.Forall₂ RelR rs rs2 ∧ List.Forall₂ RelN ns ns2 ∧
      resTotal rs2 - nodeTotal ns2 = resTotal rs - nodeTotal ns ∧
      ((ns.filter fun n => decide (0 < n.r_cap)) ≠ [] →
        countPos rs2 ns2 < countPos rs ns) := by
  unfold onePass at h
  by_cases hc : ((rs.filter fun r => decide (0 < r.r_cap)).isEmpty
      && !(ns.filter fun n => decide (0 < n.r_cap)).isEmpty) = true
  · rw [if_pos hc] at h
    cases h
  · rw [if_neg hc] at h
    have heq := Option.some.inj h
    have good := passLabelPairs_good rs ns inv
    have hspec := foldPairs_spec (passLabelPairs rs ns) rs ns inv good
    rw [heq] at hspec
    refine ⟨hspec.1, hspec.2.1, hspec.2.2.1, hspec.2.2.2, ?_⟩
    intro hnl
    have hrlne : (rs.filter fun r => decide (0 < r.r_cap)) ≠ [] := by
      intro hrleq
      apply hc
      rw [Bool.and_eq_true]
      refine ⟨(isEmpty_true_iff _).mpr hrleq, ?_⟩
      cases hie : (ns.filter fun n => decide (0 < n.r_cap)).isEmpty with
      | true => exact absurd ((isEmpty_true_iff _).mp hie) hnl
      | false => rfl
    have hlpne := passLabelPairs_ne_nil rs ns hrlne hnl
    have hst := foldPairs_strict (passLabelPairs rs ns) rs ns inv good hlpne
    rw [heq] at hst
    exact hst

/-- Under the sufficiency invariant (total remaining demand bounded by total
remaining capacity) a pass cannot hit the empty-tree crash. -/
theorem onePass_no_crash {rs ns} (inv : AllocInv rs ns)
    (htot : nodeTotal ns ≤ resTotal rs) :
    onePass rs ns = some ((passLabelPairs rs ns).foldl applyPair (rs, ns)) := by
  unfold onePass
  by_cases hc : ((rs.filter fun r => decide (0 < r.r_cap)).isEmpty
      && !(ns.filter fun n => decide (0 < n.r_cap)).isEmpty) = true
  · exfalso
    rw [Bool.and_eq_true] at hc
    obtain ⟨hrl, hnl⟩ := hc
    have hrleq : (rs.filter fun r => decide (0 < r.r_cap)) = [] := (isEmpty_true_iff _).mp hrl
    have hnlne : (ns.filter fun n => decide (0 < n.r_cap)) ≠ [] := by
      intro h0
      rw [h0] at hnl
      simp at hnl
    obtain ⟨x, hx⟩ := List.exists_mem_of_ne_nil _ hnlne
    have hxmem := List.mem_filter.mp hx
    have hxpos : 0 < x.r_cap := by simpa using hxmem.2
    have hnt : 0 < nodeTotal ns := by
      have hle : x.r_cap ≤ nodeTotal ns := by
        refine List.single_le_sum ?_ _ (List.mem_map_of_mem NodeRow.r_cap hxmem.1)
        intro v hv
        obtain ⟨r, hr, rfl⟩ := List.mem_map.mp hv
        exact inv.nnN r hr
      linarith
    have hall : ∀ r ∈ rs, r.r_cap ≤ 0 := by
      intro r hr
      have := List.filter_eq_nil_iff.mp hrleq r hr
      simpa using this
    have hrt : resTotal rs ≤ 0 := by
      refine sum_nonpos_of_forall ?_
      intro v hv
      obtain ⟨r, hr, rfl⟩ := List.mem_map.mp hv
      exact hall r hr
    have := le_trans htot hrt
    linarith
  · rw [if_neg hc]

/-- The allocation loop with sufficient fuel: under the invariant and
sufficiency it exits normally with every remaining demand at zero, having
moved every row along the step relations. -/
theorem allocLoop_ok :
    ∀ (fuel : ℕ) (rs : List ResourceRow) (ns : List NodeRow), AllocInv rs ns →
      nodeTotal ns ≤ resTotal rs → countPos rs ns ≤ fuel → 1 ≤ fuel →
      ∃ rs2 ns2, allocLoop fuel rs ns = .ok rs2 ns2 ∧ AllocInv rs2 ns2 ∧
        List.Forall₂ RelR rs rs2 ∧ List.Forall₂ RelN ns ns2 ∧
        ∀ n ∈ ns2, n.r_cap = 0 := by
  intro fuel
  induction fuel with
  | zero =>
      intro rs ns _ _ _ h1
      omega
  | succ f ih =>
      intro rs ns inv htot hcount _
      have hop := onePass_no_crash inv htot
      obtain ⟨rs2, ns2, hst⟩ : ∃ rs2 ns2, onePass rs ns = some (rs2, ns2) :=
        ⟨((passLabelPairs rs ns).foldl applyPair (rs, ns)).1,
         ((passLabelPairs rs ns).foldl applyPair (rs, ns)).2, by rw [hop]⟩
      have spec := onePass_spec inv hst
      by_cases hexit : (ns2.countP fun n => decide (0 < n.r_cap)) = 0
      · refine ⟨rs2, ns2, ?_, spec.1, spec.2.1, spec.2.2.1, ?_⟩
        · simp [allocLoop, hst, hexit]
        · intro n hnm
          have h0 : ¬ (0 < n.r_cap) := by
            have := List.countP_eq_zero.mp hexit n hnm
            simpa using this
          exact le_antisymm (not_lt.mp h0) (spec.1.nnN n hnm)
      · have hnl : (ns.filter fun n => decide (0 < n.r_cap)) ≠ [] := by
          intro hempty
          have hid : passLabelPairs rs ns = [] := passLabelPairs_of_no_nodes rs ns hempty
          have : onePass rs ns = some (rs, ns) := by
            rw [hop, hid]
            rfl
          rw [hst] at this
          obtain ⟨h1, h2⟩ := Prod.mk.injEq _ _ _ _ ▸ Option.some.inj this
          have hcnt : (ns.countP fun n => decide (0 < n.r_cap)) = 0 := by
            rw [List.countP_eq_length_filter, hempty]
            rfl
          rw [h2] at hexit
          exact hexit hcnt
        have hstrict := spec.2.2.2.2 hnl
        have hpos2 : 0 < (ns2.countP fun n => decide (0 < n.r_cap)) :=
          Nat.pos_of_ne_zero hexit
        have hcount2 : countPos rs2 ns2 ≤ f := by
          have := hstrict
          omega
        have h1f : 1 ≤ f := by
          have : 1 ≤ countPos rs2 ns2 := by
            unfold countPos
            omega
          omega
        have htot2 : nodeTotal ns2 ≤ resTotal rs2 := by
          have hd := spec.2.2.2.1
          linarith
        obtain ⟨rs3, ns3, hrun, inv3, f2r3, f2n3, hzero⟩ := ih rs2 ns2 spec.1 htot2 hcount2 h1f
        refine ⟨rs3, ns3, ?_, inv3, ?_, ?_, hzero⟩
        · simp only [allocLoop, hst]
          rw [if_neg hexit]
          exact hrun
        · exact forall₂_comp relR_trans spec.2.1 f2r3
        · exact forall₂_comp relN_trans spec.2.2.1 f2n3

/-! Initial state of the loop and invariant propagation along whole runs. -/

/-- The initial frames built by `nearest_power_nodes` satisfy the loop
invariant, given the documented preconditions: unique identifiers, positive
resource capacities, nonnegative demands. -/
theorem init_allocInv (P : List PowerNode) (R : List PowerResource)
    (hndP : (P.map PowerNode.nid).Nodup) (hndR : (R.map PowerResource.rid).Nodup)
    (hcap : ∀ x ∈ R, 0 < x.capacity) (hdem : ∀ x ∈ P, 0 ≤ x.capacity) :
    AllocInv (initResources R) (initNodes P) := by
  have hfrac : ∀ rid, sumAssigned (initNodes P) rid = 0 := by
    intro rid
    unfold sumAssigned initNodes
    rw [List.map_map]
    have hcongr : List.map ((fun n => fracFor n rid) ∘ fun x =>
        ({ nid := x.nid, latitude := x.latitude, longitude := x.longitude,
           capacity := x.capacity, site_id := [], site_fracs := [],
           r_cap := x.capacity } : NodeRow)) P = List.map (fun _ => (0 : ℚ)) P :=
      List.map_congr_left fun x _ => rfl
    rw [hcongr]
    exact sum_map_zero P
  constructor
  · simpa [initResources, List.map_map, Function.comp] using hndR
  · simpa [initNodes, List.map_map, Function.comp] using hndP
  · intro r hr
    obtain ⟨x, hx, rfl⟩ := List.mem_map.mp hr
    exact hcap x hx
  · intro r hr
    obtain ⟨x, hx, rfl⟩ := List.mem_map.mp hr
    exact le_of_lt (hcap x hx)
  · intro n hn
    obtain ⟨x, hx, rfl⟩ := List.mem_map.mp hn
    exact hdem x hx
  · intro n hn
    obtain ⟨x, hx, rfl⟩ := List.mem_map.mp hn
    rfl
  · intro r hr
    obtain ⟨x, hx, rfl⟩ := List.mem_map.mp hr
    rw [hfrac]
    show (0 : ℚ) * x.capacity = x.capacity - x.capacity
    rw [zero_mul, sub_self]
  · intro n hn
    obtain ⟨x, hx, rfl⟩ := List.mem_map.mp hn
    show (0 : ℚ) + x.capacity = x.capacity
    rw [zero_add]
  · intro n hn
    obtain ⟨x, hx, rfl⟩ := List.mem_map.mp hn
    exact List.nodup_nil
  · intro n hn rid hrid
    obtain ⟨x, hx, rfl⟩ := List.mem_map.mp hn
    simp at hrid

/-- The invariant holds after any number of loop iterations. -/
theorem runPasses_inv :
    ∀ (k : ℕ) (rs ns rs2 ns2), AllocInv rs ns →
      runPasses k rs ns = some (rs2, ns2) → AllocInv rs2 ns2 := by
  intro k
  induction k with
  | zero =>
      intro rs ns rs2 ns2 inv h
      simp only [runPasses, Option.some.injEq] at h
      obtain ⟨h1, h2⟩ := Prod.mk.injEq _ _ _ _ ▸ h
      rw [← h1, ← h2]
      exact inv
  | succ k ih =>
      intro rs ns rs2 ns2 inv h
      simp only [runPasses] at h
      cases hop : onePass rs ns with
      | none => rw [hop] at h; cases h
      | some st =>
          obtain ⟨rsm, nsm⟩ := st
          simp only [hop] at h
          have spec := onePass_spec inv hop
          exact ih rsm nsm rs2 ns2 spec.1 h

/-- The invariant holds in the final state of a normally-terminating run. -/
theorem allocLoop_inv :
    ∀ (fuel : ℕ) (rs ns rs2 ns2), AllocInv rs ns →
      allocLoop fuel rs ns = .ok rs2 ns2 → AllocInv rs2 ns2 := by
  intro fuel
  induction fuel with
  | zero =>
      intro rs ns rs2 ns2 _ h
      cases h
  | succ f ih =>
      intro rs ns rs2 ns2 inv h
      simp only [allocLoop] at h
      cases hop : onePass rs ns with
      | none => rw [hop] at h; cases h
      | some st =>
          obtain ⟨rsm, nsm⟩ := st
          simp only [hop] at h
          have spec := onePass_spec inv hop
          by_cases hexit : (nsm.countP fun n => decide (0 < n.r_cap)) = 0
          · rw [if_pos hexit] at h
            cases h
            exact spec.1
          · rw [if_neg hexit] at h
            exact ih rsm nsm rs2 ns2 spec.1 h

/-- Strengthening an elementwise relation using membership. -/
theorem forall₂_imp_mem {α β : Type} {R S : α → β → Prop} :
    ∀ {l1 : List α} {l2 : List β}, List.Forall₂ R l1 l2 →
      (∀ a b, a ∈ l1 → b ∈ l2 → R a b → S a b) → List.Forall₂ S l1 l2 := by
  intro l1 l2 h
  induction h with
  | nil => intro _; exact List.Forall₂.nil
  | @cons a b t1 t2 hab _ ih =>
      intro himp
      exact List.Forall₂.cons (himp a b (by simp) (by simp) hab)
        (ih fun x y hx hy => himp x y (by simp [hx]) (by simp [hy]))

/-- C5.  Conservation: throughout every run of `nearest_power_nodes` — after
any number `k` of passes of its loop, which covers every intermediate and
final state — and for every resource, the sum over all nodes of the fraction
assigned to that resource times the total capacity of the resource never
exceeds the total capacity of the resource.  Hypotheses are the documented
input preconditions: uniquely-indexed tables, positive resource capacities,
nonnegative demands (no sufficiency assumption: the bound also holds on runs
that end in the capacity-exhausted crash). -/
theorem c5_conservation (P : List PowerNode) (R : List PowerResource)
    (hndP : (P.map PowerNode.nid).Nodup) (hndR : (R.map PowerResource.rid).Nodup)
    (hcap : ∀ x ∈ R, 0 < x.capacity) (hdem : ∀ x ∈ P, 0 ≤ x.capacity)
    (k : ℕ) (rs2 : List ResourceRow) (ns2 : List NodeRow)
    (hrun : runPasses k (initResources R) (initNodes P) = some (rs2, ns2)) :
    ∀ r ∈ rs2, sumAssigned ns2 r.rid * r.capacity ≤ r.capacity := by
  have inv2 := runPasses_inv k _ _ _ _ (init_allocInv P R hndP hndR hcap hdem) hrun
  intro r hr
  rw [inv2.accR r hr]
  have := inv2.nnR r hr
  linarith

/-- Witness for C5: one node of demand 1, one resource of capacity 2, after
one pass. -/
theorem c5_conservation_witness :
    sumAssigned [(⟨0, 0, 0, 1, [0], [1 / 2], 0⟩ : NodeRow)]
        (⟨0, 0, 0, 2, 1⟩ : ResourceRow).rid * (⟨0, 0, 0, 2, 1⟩ : ResourceRow).capacity
      ≤ (⟨0, 0, 0, 2, 1⟩ : ResourceRow).capacity :=
  c5_conservation [⟨0, 0, 0, 1⟩] [⟨0, 0, 0, 2⟩] (by simp) (by simp) (by norm_num)
    (by norm_num) 1 [⟨0, 0, 0, 2, 1⟩] [⟨0, 0, 0, 1, [0], [1 / 2], 0⟩] (by
      norm_num [runPasses, onePass, passLabelPairs, applyPair, findByKey, updateByKey,
        apportion, winners, groupRowsAux, idxmin, idxminGo, queryNearest, queryNearestGo,
        sqDist, initResources, initNodes, List.filter, List.range, List.range.loop,
        List.filterMap, List.foldl, List.find?])
    (⟨0, 0, 0, 2, 1⟩ : ResourceRow) (by simp)

/-- C4.  Completion: on any input with positive demands, positive resource
capacities, uniquely-indexed tables, and total resource capacity at least
the total demand, the loop of `nearest_power_nodes` terminates normally (fuel
`R + N + 1` suffices) with every remaining demand exactly `0`, and for every
node the sum over its assignments of fraction times total capacity of the
matched resource equals exactly its original demand. -/
theorem c4_completion (P : List PowerNode) (R : List PowerResource)
    (hndP : (P.map PowerNode.nid).Nodup) (hndR : (R.map PowerResource.rid).Nodup)
    (hdem : ∀ x ∈ P, 0 < x.capacity) (hcap : ∀ x ∈ R, 0 < x.capacity)
    (hsuff : (P.map PowerNode.capacity).sum ≤ (R.map PowerResource.capacity).sum) :
    ∃ rs2 ns2,
      allocLoop (R.length + P.length + 1) (initResources R) (initNodes P)
        = .ok rs2 ns2 ∧
      List.Forall₂ (fun x n => n.nid = x.nid ∧ n.r_cap = 0 ∧
        nodeAssignedTotal rs2 n = x.capacity) P ns2 := by
  have inv := init_allocInv P R hndP hndR hcap fun x hx => le_of_lt (hdem x hx)
  have htot : nodeTotal (initNodes P) ≤ resTotal (initResources R) := by
    unfold nodeTotal resTotal initNodes initResources
    rw [List.map_map, List.map_map]
    exact hsuff
  have hcnt : countPos (initResources R) (initNodes P) ≤ R.length + P.length := by
    unfold countPos
    have h1 : ((initResources R).countP fun r => decide (0 < r.r_cap))
        ≤ (initResources R).length := List.countP_le_length _
    have h2 : ((initNodes P).countP fun n => decide (0 < n.r_cap))
        ≤ (initNodes P).length := List.countP_le_length _
    have h3 : (initResources R).length = R.length := by simp [initResources]
    have h4 : (initNodes P).length = P.length := by simp [initNodes]
    omega
  obtain ⟨rs2, ns2, hrun, inv2, _, f2n, hzero⟩ :=
    allocLoop_ok (R.length + P.length + 1) _ _ inv htot (by omega) (by omega)
  refine ⟨rs2, ns2, hrun, ?_⟩
  have hinit : List.Forall₂ (fun (x : PowerNode) (m : NodeRow) =>
      m.nid = x.nid ∧ m.capacity = x.capacity) P (initNodes P) :=
    forall₂_map_pointwise fun x _ => ⟨rfl, rfl⟩
  have hstep : List.Forall₂ (fun (x : PowerNode) (n : NodeRow) =>
      n.nid = x.nid ∧ n.capacity = x.capacity) P ns2 :=
    forall₂_comp
      (fun x m n hxm hmn => ⟨hmn.1.symm.trans hxm.1, hmn.2.1.symm.trans hxm.2⟩)
      hinit f2n
  refine forall₂_imp_mem hstep ?_
  intro x n _ hn hr
  refine ⟨hr.1, hzero n hn, ?_⟩
  have hacc := inv2.accN n hn
  rw [hzero n hn, add_zero] at hacc
  rw [hacc, hr.2]

/-- Witness for C4: one node of demand 1, one resource of capacity 2. -/
theorem c4_completion_witness :
    ∃ rs2 ns2,
      allocLoop (List.length [(⟨0, 0, 0, 2⟩ : PowerResource)]
          + List.length [(⟨0, 0, 0, 1⟩ : PowerNode)] + 1)
        (initResources [⟨0, 0, 0, 2⟩]) (initNodes [⟨0, 0, 0, 1⟩]) = .ok rs2 ns2 ∧
      List.Forall₂ (fun x n => n.nid = x.nid ∧ n.r_cap = 0 ∧
        nodeAssignedTotal rs2 n = x.capacity) [(⟨0, 0, 0, 1⟩ : PowerNode)] ns2 :=
  c4_completion [⟨0, 0, 0, 1⟩] [⟨0, 0, 0, 2⟩] (by simp) (by simp) (by norm_num)
    (by norm_num) (by norm_num)

/-- C6, amended.  Pass bound: on any input with positive demands, positive
capacities, uniquely-indexed tables, sufficient total capacity AND at least
one requested node, the loop terminates normally within `R + N` passes (fuel
`R + N` suffices): each executed pass zeroes at least one remaining quantity
of the at most `R + N` that are positive, and the exit test runs at the end
of every pass.  (Without the extra node, the `while True` loop still executes
its body once — see the counterexample.) -/
theorem c6_pass_bound (P : List PowerNode) (R : List PowerResource)
    (hndP : (P.map PowerNode.nid).Nodup) (hndR : (R.map PowerResource.rid).Nodup)
    (hdem : ∀ x ∈ P, 0 < x.capacity) (hcap : ∀ x ∈ R, 0 < x.capacity)
    (hsuff : (P.map PowerNode.capacity).sum ≤ (R.map PowerResource.capacity).sum)
    (hne : P ≠ []) :
    ∃ rs2 ns2,
      allocLoop (R.length + P.length) (initResources R) (initNodes P) = .ok rs2 ns2 := by
  have inv := init_allocInv P R hndP hndR hcap fun x hx => le_of_lt (hdem x hx)
  have htot : nodeTotal (initNodes P) ≤ resTotal (initResources R) := by
    unfold nodeTotal resTotal initNodes initResources
    rw [List.map_map, List.map_map]
    exact hsuff
  have hcnt : countPos (initResources R) (initNodes P) ≤ R.length + P.length := by
    unfold countPos
    have h1 : ((initResources R).countP fun r => decide (0 < r.r_cap))
        ≤ (initResources R).length := List.countP_le_length _
    have h2 : ((initNodes P).countP fun n => decide (0 < n.r_cap))
        ≤ (initNodes P).length := List.countP_le_length _
    have h3 : (initResources R).length = R.length := by simp [initResources]
    have h4 : (initNodes P).length = P.length := by simp [initNodes]
    omega
  have hple : 1 ≤ P.length := List.length_pos.mpr hne
  obtain ⟨rs2, ns2, hrun, _, _, _, _⟩ :=
    allocLoop_ok (R.length + P.length) _ _ inv htot hcnt (by omega)
  exact ⟨rs2, ns2, hrun⟩

/-- Witness for C6: one node of demand 1, one resource of capacity 2,
`R + N = 2` passes of fuel. -/
theorem c6_pass_bound_witness :
    ∃ rs2 ns2,
      allocLoop (List.length [(⟨0, 0, 0, 2⟩ : PowerResource)]
          + List.length [(⟨0, 0, 0, 1⟩ : PowerNode)])
        (initResources [⟨0, 0, 0, 2⟩]) (initNodes [⟨0, 0, 0, 1⟩]) = .ok rs2 ns2 :=
  c6_pass_bound [⟨0, 0, 0, 1⟩] [⟨0, 0, 0, 2⟩] (by simp) (by simp) (by norm_num)
    (by norm_num) (by norm_num) (by simp)

/-- Counterexample to C6 as stated.  On the empty input (no nodes, no
resources — the positivity and sufficiency hypotheses hold vacuously) the
claim allows `R + N = 0` passes, but the `while True:` loop of the source
runs its body before the first exit check, so it cannot terminate within `0`
passes: with fuel `0` the loop is still running. -/
theorem c6_counterexample :
    allocLoop (List.length ([] : List PowerResource) + List.length ([] : List PowerNode))
      (initResources []) (initNodes []) = LoopResult.fuelOut :=
  rfl

/-- C10.  In every normally-terminating run of the loop of
`nearest_power_nodes` (any fuel), the resulting `site_id` list of every node
has pairwise-distinct entries: every apportionment either zeroes the node
(excluding it from later passes) or zeroes the resource (excluding it from
later nominations), so a node draws from a given resource at most once. -/
theorem c10_site_ids_distinct (P : List PowerNode) (R : List PowerResource)
    (hndP : (P.map PowerNode.nid).Nodup) (hndR : (R.map PowerResource.rid).Nodup)
    (hcap : ∀ x ∈ R, 0 < x.capacity) (hdem : ∀ x ∈ P, 0 ≤ x.capacity)
    (fuel : ℕ) (rs2 : List ResourceRow) (ns2 : List NodeRow)
    (h : allocLoop fuel (initResources R) (initNodes P) = .ok rs2 ns2) :
    ∀ n ∈ ns2, n.site_id.Nodup :=
  (allocLoop_inv fuel _ _ _ _ (init_allocInv P R hndP hndR hcap hdem) h).siteNodup

/-- Witness for C10: the single assignment list `[0]` of the one-pass run. -/
theorem c10_site_ids_distinct_witness :
    (⟨0, 0, 0, 1, [0], [1 / 2], 0⟩ : NodeRow).site_id.Nodup :=
  c10_site_ids_distinct [⟨0, 0, 0, 1⟩] [⟨0, 0, 0, 2⟩] (by simp) (by simp) (by norm_num)
    (by norm_num) 1 [⟨0, 0, 0, 2, 1⟩] [⟨0, 0, 0, 1, [0], [1 / 2], 0⟩] (by
      norm_num [allocLoop, onePass, passLabelPairs, applyPair, findByKey, updateByKey,
        apportion, winners, groupRowsAux, idxmin, idxminGo, queryNearest, queryNearestGo,
        sqDist, initResources, initNodes, List.filter, List.range, List.range.loop,
        List.filterMap, List.foldl, List.find?])
    (⟨0, 0, 0, 1, [0], [1 / 2], 0⟩ : NodeRow) (by simp)
